import Mathlib

/-!  Formal model of the hotspot tracker (src/main.go).

The Go program stores `*KeyFreq` pointers both in each shard's min-heap
slice and in its `keyFreqs` map, and the aggregation code pushes those
same pointers into a transient aggregate heap, so one mutable record can
be shared by several containers at once.  The model makes this aliasing
explicit: a `Store` is the list of all records ever allocated, a record
is named by its allocation index, and heaps and lookup tables hold these
indices.  Every Go statement that mutates a record through a pointer
becomes a `Store` update, visible through every container holding the
same index, exactly as in the source.  Runtime panics (index out of
range, division or modulo by zero, close of a closed channel, negative
slice allocation) and the one permanent block (see `aggregateData`) are
modelled as `none`. -/

structure KeyFreq where
  key : String
  freq : Int
  index : Int
deriving DecidableEq

abbrev Store := List KeyFreq

/-- Dereference of the record with allocation index `p`.  Indices handed
out by `shardRecordRequest` are always in range, so the default is never
read on executions starting from a fresh tracker. -/
def cell (σ : Store) (p : Nat) : KeyFreq := σ.getD p ⟨"", 0, 0⟩

def setCell (σ : Store) (p : Nat) (c : KeyFreq) : Store := σ.set p c

/-- Read of slot `i` of the heap slice (`h[i]`); all call sites below
guard the bounds exactly as the Go methods do. -/
def idAt (h : List Nat) (i : Int) : Nat := h.getD i.toNat 0

/-- go: MinHeap.Len is `List.length`; MinHeap.Less (src/main.go:22-27),
including its explicit bounds guard. -/
def minHeapLess (σ : Store) (h : List Nat) (i j : Int) : Bool :=
  if (h.length : Int) ≤ i ∨ (h.length : Int) ≤ j then false
  else decide ((cell σ (idAt h i)).freq < (cell σ (idAt h j)).freq)

/-- go: MinHeap.Swap (src/main.go:28-35), including its bounds guard:
swaps the two slots and then writes the new positions into the two
records' Index fields (a store mutation seen by every container that
shares the records). -/
def minHeapSwap (σ : Store) (h : List Nat) (i j : Int) : Store × List Nat :=
  if (h.length : Int) ≤ i ∨ (h.length : Int) ≤ j then (σ, h)
  else
    let a := idAt h i
    let b := idAt h j
    let h1 := (h.set i.toNat b).set j.toNat a
    let σ1 := setCell σ b { cell σ b with index := i }
    let σ2 := setCell σ1 a { cell σ1 a with index := j }
    (σ2, h1)

/-- go: container/heap `up` (sift-up).  The fuel only bounds the loop;
callers pass enough for it never to run out (the position shrinks by
half every iteration). -/
def heapUp (σ : Store) (h : List Nat) (j : Int) : Nat → Store × List Nat
  | 0 => (σ, h)
  | fuel + 1 =>
    let i := (j - 1).tdiv 2
    if i = j ∨ minHeapLess σ h j i = false then (σ, h)
    else
      let p := minHeapSwap σ h i j
      heapUp p.1 p.2 i fuel

/-- go: container/heap `down` main loop; returns the final position.
The position grows past `n` in at most `n` iterations, so the fuel
passed by `heapDown` never runs out. -/
def heapDownLoop (σ : Store) (h : List Nat) (i n : Int) : Nat → Store × List Nat × Int
  | 0 => (σ, h, i)
  | fuel + 1 =>
    let j1 := 2 * i + 1
    if n ≤ j1 ∨ j1 < 0 then (σ, h, i)
    else
      let j := if j1 + 1 < n ∧ minHeapLess σ h (j1 + 1) j1 = true then j1 + 1 else j1
      if minHeapLess σ h j i = true then
        let p := minHeapSwap σ h i j
        heapDownLoop p.1 p.2 j n fuel
      else (σ, h, i)

/-- go: container/heap `down`; the Bool is its `i > i0` result. -/
def heapDown (σ : Store) (h : List Nat) (i0 n : Int) : Store × List Nat × Bool :=
  let r := heapDownLoop σ h i0 n (h.length + 1)
  (r.1, r.2.1, decide (i0 < r.2.2))

/-- go: MinHeap.Push (src/main.go:36-41): Index := current length, then
append the pointer. -/
def minHeapPush (σ : Store) (h : List Nat) (id : Nat) : Store × List Nat :=
  (setCell σ id { cell σ id with index := (h.length : Int) }, h ++ [id])

/-- go: MinHeap.Pop (src/main.go:42-49): removes the last slot and sets
that record's Index to -1.  `none` models the index-out-of-range panic
on an empty heap. -/
def minHeapPop (σ : Store) (h : List Nat) : Option (Store × List Nat × Nat) :=
  match h.getLast? with
  | none => none
  | some id => some (setCell σ id { cell σ id with index := -1 }, h.dropLast, id)

/-- go: heap.Push = MinHeap.Push, then sift-up from the last slot. -/
def heapPush (σ : Store) (h : List Nat) (id : Nat) : Store × List Nat :=
  let p := minHeapPush σ h id
  heapUp p.1 p.2 ((p.2.length : Int) - 1) (p.2.length + 1)

/-- go: heap.Pop = Swap(0, n-1); down(0, n-1); MinHeap.Pop. -/
def heapPop (σ : Store) (h : List Nat) : Option (Store × List Nat × Nat) :=
  let n : Int := (h.length : Int) - 1
  let p := minHeapSwap σ h 0 n
  let q := heapDown p.1 p.2 0 n
  minHeapPop q.1 q.2.1

/-- go: heap.Fix(i): if the element did not move down, sift it up. -/
def heapFix (σ : Store) (h : List Nat) (i : Int) : Store × List Nat :=
  let q := heapDown σ h i (h.length : Int)
  if q.2.2 = true then (q.1, q.2.1) else heapUp q.1 q.2.1 i (q.2.1.length + 1)

/-- go: heap.Init loop: down(i, n) for i = n/2 - 1 down to 0. -/
def heapInitLoop (σ : Store) (h : List Nat) (i n : Int) : Nat → Store × List Nat
  | 0 => (σ, h)
  | fuel + 1 =>
    if i < 0 then (σ, h)
    else
      let q := heapDown σ h i n
      heapInitLoop q.1 q.2.1 (i - 1) n fuel

def heapInit (σ : Store) (h : List Nat) : Store × List Nat :=
  heapInitLoop σ h ((h.length : Int).tdiv 2 - 1) (h.length : Int) (h.length + 1)

/-- go map lookup `keyFreqs[key]` (a Go map holds one entry per key). -/
def kfLookup (kfs : List (String × Nat)) (k : String) : Option Nat :=
  match kfs.find? (fun p => decide (p.1 = k)) with
  | some p => some p.2
  | none => none

/-- go map deletion `delete(keyFreqs, key)`. -/
def kfErase (kfs : List (String × Nat)) (k : String) : List (String × Nat) :=
  kfs.filter (fun p => decide (p.1 ≠ k))

/-- go map assignment `keyFreqs[key] = kf`. -/
def kfInsert (kfs : List (String × Nat)) (k : String) (id : Nat) : List (String × Nat) :=
  (k, id) :: kfErase kfs k

structure Shard where
  topN : Int
  minHeap : List Nat
  keyFreqs : List (String × Nat)
deriving DecidableEq

/-- go: NewShard (src/main.go:71-79); heap.Init of the fresh empty heap
is a no-op. -/
def newShard (n : Int) : Shard := ⟨n, [], []⟩

/-- go: processKeyFreq (src/main.go:180-191).  Note that it pushes the
given record itself (the shared pointer `kf`), not a copy.  The `none`
branch is the out-of-range panic of `tShard.minHeap[0]` on an empty full
heap, reachable only when topN ≤ 0. -/
def processKeyFreq (σ : Store) (t : Shard) (id : Nat) : Option (Store × Shard) :=
  if (t.minHeap.length : Int) < t.topN then
    let p := heapPush σ t.minHeap id
    some (p.1, { t with minHeap := p.2,
                        keyFreqs := kfInsert t.keyFreqs (cell p.1 id).key id })
  else
    match t.minHeap.head? with
    | none => none
    | some root =>
      if (cell σ root).freq ≤ (cell σ id).freq then
        match heapPop σ t.minHeap with
        | none => none
        | some (σ1, h1, minId) =>
          let kfs1 := kfErase t.keyFreqs (cell σ1 minId).key
          let p := heapPush σ1 h1 id
          some (p.1, { t with minHeap := p.2,
                              keyFreqs := kfInsert kfs1 (cell p.1 id).key id })
      else some (σ, t)

/-- go: shard.RecordRequest (src/main.go:201-214): tracked keys get their
shared record's Frequency incremented and heap.Fix at the record's stored
Index; untracked keys get a fresh record with Frequency 1 put through the
admission test. -/
def shardRecordRequest (σ : Store) (s : Shard) (key : String) : Option (Store × Shard) :=
  match kfLookup s.keyFreqs key with
  | some id =>
    let σ1 := setCell σ id { cell σ id with freq := (cell σ id).freq + 1 }
    let p := heapFix σ1 s.minHeap (cell σ1 id).index
    some (p.1, { s with minHeap := p.2 })
  | none =>
    let σ1 := σ ++ [{ key := key, freq := 1, index := 0 }]
    processKeyFreq σ1 s σ.length

/-- Pop loop of go: shard.GetHotspots: `for i := range minHeapCopy`
ranges over the length taken before the pops, so it pops every element;
each iteration stores the popped record. -/
def extractLoop (σ : Store) (h : List Nat) : Nat → Option (Store × List KeyFreq)
  | 0 => some (σ, [])
  | k + 1 =>
    match heapPop σ h with
    | none => none
    | some (σ1, h1, id) =>
      match extractLoop σ1 h1 k with
      | none => none
      | some (σ2, rest) => some (σ2, cell σ1 id :: rest)

/-- go: shard.GetHotspots (src/main.go:216-232): copies the slice of
pointers, heapifies the copy and pops every element.  The records are
shared with the live containers, so the Index writes of Init/Pop persist
in the store even though the copied slice is discarded. -/
def shardGetHotspotsKF (σ : Store) (s : Shard) : Option (Store × List KeyFreq) :=
  let p := heapInit σ s.minHeap
  extractLoop p.1 p.2 p.2.length

def shardGetHotspots (σ : Store) (s : Shard) : Option (Store × List String) :=
  match shardGetHotspotsKF σ s with
  | none => none
  | some (σ1, kfs) => some (σ1, kfs.map (fun c => c.key))

/-- go: shard.IsHotspot (src/main.go:234-241). -/
def shardIsHotspot (s : Shard) (key : String) : Bool :=
  (kfLookup s.keyFreqs key).isSome

structure HotspotTracker where
  shards : List Shard
  numShards : Int
  topN : Int
  cache : Option Shard
  update : Bool
  stopClosed : Bool
  withCache : Bool
deriving DecidableEq

/-- go: NewHotspotTracker (src/main.go:82-93).  There is no argument
validation; `make([]*shard, numShards)` panics only when the count is
negative, and the remaining fields take their zero values. -/
def newHotspotTracker (topN numShards : Int) : Option HotspotTracker :=
  if numShards < 0 then none
  else some { shards := List.replicate numShards.toNat (newShard topN),
              numShards := numShards, topN := topN,
              cache := none, update := false, stopClosed := false, withCache := false }

/-- go: WithCache (src/main.go:95-102).  The ticker goroutine started
here is the timer of the cache; `tick` below is one of its ticks. -/
def WithCache (ht : HotspotTracker) : HotspotTracker :=
  { ht with cache := some (newShard ht.topN), update := true,
            stopClosed := false, withCache := true }

/-- One tick of the background ticker (src/main.go:104-116): sets the
update flag unconditionally. -/
def tick (ht : HotspotTracker) : HotspotTracker := { ht with update := true }

/-- go: Close (src/main.go:117-121).  Closing the stop channel twice
panics; without caching the close is skipped entirely. -/
def Close (ht : HotspotTracker) : Option HotspotTracker :=
  if ht.withCache = true then
    if ht.stopClosed = true then none
    else some { ht with stopClosed := true }
  else some ht

/-- UTF-8 bytes of one code point, as Go's `[]byte(key)` produces. -/
def utf8Bytes (c : Nat) : List Nat :=
  if c < 128 then [c]
  else if c < 2048 then [192 + c / 64, 128 + c % 64]
  else if c < 65536 then [224 + c / 4096, 128 + c / 64 % 64, 128 + c % 64]
  else [240 + c / 262144, 128 + c / 4096 % 64, 128 + c / 64 % 64, 128 + c % 64]

def strBytes (s : String) : List Nat := (s.data.map (fun c => utf8Bytes c.toNat)).flatten

/-- go: fnv.New32a / Write / Sum32: the 32-bit FNV-1a hash. -/
def fnv32a (bs : List Nat) : Nat :=
  bs.foldl (fun hsh b => ((hsh ^^^ b) * 16777619) % 4294967296) 2166136261

/-- go: HotspotTracker.shardIndex (src/main.go:123-129).  `%` by zero
panics; `int(hashValue)` is non-negative on 64-bit ints, and Go's `%`
is the truncated modulus. -/
def shardIndex (ht : HotspotTracker) (key : String) : Option Int :=
  if ht.numShards = 0 then none
  else some ((Int.ofNat (fnv32a (strBytes key))).tmod ht.numShards)

/-- go: HotspotTracker.RecordRequest (src/main.go:131-135). -/
def recordRequest (σ : Store) (ht : HotspotTracker) (key : String) :
    Option (Store × HotspotTracker) :=
  match shardIndex ht key with
  | none => none
  | some idx =>
    match ht.shards.get? idx.toNat with
    | none => none
    | some s =>
      match shardRecordRequest σ s key with
      | none => none
      | some (σ1, s1) => some (σ1, { ht with shards := ht.shards.set idx.toNat s1 })

/-- Inner loop of go: aggregateShards: feed every record of one shard's
live heap (the shared pointers themselves, not copies) to processKeyFreq. -/
def aggShardLoop (σ : Store) (t : Shard) : List Nat → Option (Store × Shard)
  | [] => some (σ, t)
  | id :: rest =>
    match processKeyFreq σ t id with
    | none => none
    | some (σ1, t1) => aggShardLoop σ1 t1 rest

/-- go: aggregateShards (src/main.go:166-178). -/
def aggLoop (σ : Store) (t : Shard) : List Shard → Option (Store × Shard)
  | [] => some (σ, t)
  | s :: rest =>
    match aggShardLoop σ t s.minHeap with
    | none => none
    | some (σ1, t1) => aggLoop σ1 t1 rest

def aggregateShards (σ : Store) (ht : HotspotTracker) : Option (Store × Shard) :=
  aggLoop σ (newShard ht.topN) ht.shards

/-- go: AggregateData (src/main.go:144-164).  Without caching it
aggregates under the shared tracker lock and returns the transient
shard.  With caching the code calls `ht.mu.Lock()` while this same call
still holds `ht.mu.RLock()` (its deferred RUnlock has not run), and a
sync.RWMutex cannot be acquired for writing by the goroutine that holds
it for reading, so the call blocks forever; the permanent block is
modelled as `none`. -/
def aggregateData (σ : Store) (ht : HotspotTracker) :
    Option (Store × Shard × HotspotTracker) :=
  if ht.withCache = true then none
  else
    match aggregateShards σ ht with
    | none => none
    | some (σ1, t) => some (σ1, t, ht)

/-- go: HotspotTracker.GetHotspots (src/main.go:137-142), kept at the
level of the popped records; `getHotspots` projects their keys. -/
def getHotspotsKF (σ : Store) (ht : HotspotTracker) :
    Option (Store × HotspotTracker × List KeyFreq) :=
  match aggregateData σ ht with
  | none => none
  | some (σ1, aggr, ht1) =>
    match shardGetHotspotsKF σ1 aggr with
    | none => none
    | some (σ2, kfs) => some (σ2, ht1, kfs)

def getHotspots (σ : Store) (ht : HotspotTracker) :
    Option (Store × HotspotTracker × List String) :=
  match getHotspotsKF σ ht with
  | none => none
  | some (σ1, ht1, kfs) => some (σ1, ht1, kfs.map (fun c => c.key))

/-- go: HotspotTracker.IsHotspot (src/main.go:193-199). -/
def isHotspot (σ : Store) (ht : HotspotTracker) (key : String) :
    Option (Store × HotspotTracker × Bool) :=
  match aggregateData σ ht with
  | none => none
  | some (σ1, aggr, ht1) => some (σ1, ht1, shardIsHotspot aggr key)

/-- One public tracker operation. -/
inductive Op where
  | record (key : String)
  | readHotspots
  | readIsHotspot (key : String)
deriving DecidableEq

def applyOp (σ : Store) (ht : HotspotTracker) : Op → Option (Store × HotspotTracker)
  | Op.record k => recordRequest σ ht k
  | Op.readHotspots =>
    match getHotspots σ ht with
    | none => none
    | some (σ1, ht1, _) => some (σ1, ht1)
  | Op.readIsHotspot k =>
    match isHotspot σ ht k with
    | none => none
    | some (σ1, ht1, _) => some (σ1, ht1)

/-- Run a sequence of public operations. -/
def runOps (σ : Store) (ht : HotspotTracker) : List Op → Option (Store × HotspotTracker)
  | [] => some (σ, ht)
  | op :: rest =>
    match applyOp σ ht op with
    | none => none
    | some (σ1, ht1) => runOps σ1 ht1 rest

/-! ## Concrete programs used by the scenario-level results -/

/-- The key sequence of spec Scenario 1, as tracker operations. -/
def scenario1Prog : List Op :=
  [Op.record "a", Op.record "b", Op.record "c", Op.record "a", Op.record "a",
   Op.record "b", Op.record "d", Op.record "d", Op.record "d", Op.record "d",
   Op.record "e", Op.record "f", Op.record "e"]

/-- Writes a,c,c,b,b,b (keys a,c route to shard 0 and b to shard 1 under
FNV-1a mod 2), one tracker-level read, then two more writes of a. -/
def rootBreakProg : List Op :=
  [Op.record "a", Op.record "c", Op.record "c", Op.record "b", Op.record "b",
   Op.record "b", Op.readHotspots, Op.record "a", Op.record "a"]

/-! ## C1 -/

/-- C1: the claim that every reachable shard state keeps the heap root at
the minimum tracked frequency is refuted by the code: starting from
`NewHotspotTracker(2, 2)`, recording a,c,c,b,b,b, performing one
tracker-level GetHotspots and then recording a twice leaves shard 0's
heap with frequencies [3, 2] — the root's frequency 3 is strictly above
the tracked minimum 2.  The read corrupted the records' Index fields
(aggregation pushes the shards' live records into the aggregate heap),
so the subsequent heap.Fix ran at index -1 and never restored order. -/
theorem C1_root_not_min_after_read :
    (((newHotspotTracker 2 2).bind fun t0 => runOps [] t0 rootBreakProg).map
      fun r =>
        (((r.2.shards.getD 0 (newShard 0)).minHeap.map fun i => (cell r.1 i).freq),
         decide (∀ id ∈ (r.2.shards.getD 0 (newShard 0)).minHeap,
           (cell r.1 ((r.2.shards.getD 0 (newShard 0)).minHeap.headD 0)).freq
             ≤ (cell r.1 id).freq)))
      = some ([3, 2], false) := by
  decide

/-! ## C3 -/

/-- C3: the claim that tracker-level reads leave every field of every
tracked record unchanged is refuted by the code: after
`NewHotspotTracker(1, 1)` and one RecordRequest("a") the tracked record
has Index 0, and a single tracker-level GetHotspots flips that Index to
-1 (the record was pushed into the aggregate heap and popped there),
while key and frequency survive. -/
theorem C3_read_mutates_record_index :
    (((newHotspotTracker 1 1).bind fun t0 => recordRequest [] t0 "a").map
      fun r =>
        (cell r.1 0,
         (getHotspots r.1 r.2).map fun q => cell q.1 0))
      = some (⟨"a", 1, 0⟩, some ⟨"a", 1, -1⟩) := by
  decide

/-! ## C7 -/

/-- C7: with caching enabled, reads never return: after
`NewHotspotTracker(3, 1).WithCache(...)` a write still succeeds, but the
first GetHotspots blocks forever (AggregateData calls mu.Lock() while
the same call holds mu.RLock()), so the claimed Fresh/Stale read
behaviour is unreachable. -/
theorem C7_cached_read_blocks :
    ((((newHotspotTracker 3 1).map WithCache).bind fun t =>
        recordRequest [] t "a").map fun r => getHotspots r.1 r.2)
      = some none := by
  decide

/-! ## C8 -/

/-- C8: Scenario 1 holds: from `NewHotspotTracker(3, 1)`, recording
a,b,c,a,a,b,d,d,d,d,e,f,e leaves shard 0 tracking exactly {a ↦ 3, b ↦ 2,
d ↦ 4}, and IsHotspot("f") returns false. -/
theorem C8_scenario1 :
    (((newHotspotTracker 3 1).bind fun t0 => runOps [] t0 scenario1Prog).map
      fun r =>
        (decide (((r.2.shards.getD 0 (newShard 0)).keyFreqs.map
            fun p => (p.1, (cell r.1 p.2).freq)).Perm
          [("a", (3 : Int)), ("b", 2), ("d", 4)]),
         (isHotspot r.1 r.2 "f").map fun q => q.2.2))
      = some (true, some false) := by
  decide

/-! ## C4 -/

/-- C4 counterexample: the claim that construction fails whenever
topN ≤ 0 or shardCount ≤ 0 is false at topN = 0, shardCount = 1:
NewHotspotTracker returns a tracker, with no error signal of any kind. -/
theorem C4_cex_construct_accepts_zero_topN :
    newHotspotTracker 0 1
      = some { shards := [newShard 0], numShards := 1, topN := 0,
               cache := none, update := false, stopClosed := false,
               withCache := false } := by
  decide

/-- C4 amended: construction never validates its arguments.  It returns
a tracker for every topN whenever shardCount ≥ 0 and panics only for
shardCount < 0 (negative slice allocation).  The invalid configurations
are not silent no-ops: with shardCount = 0 every RecordRequest panics in
the shard router (modulo by zero), and with shardCount ≥ 1 but topN ≤ 0
every RecordRequest of a new key panics reading the root of the empty
full heap. -/
theorem C4_no_validation_fails_on_first_write (tn sc : Int) (key : String) (σ : Store) :
    (0 ≤ sc → ∃ t, newHotspotTracker tn sc = some t) ∧
    (sc < 0 → newHotspotTracker tn sc = none) ∧
    (∀ t, newHotspotTracker tn 0 = some t → recordRequest σ t key = none) ∧
    (0 < sc → tn ≤ 0 → ∀ t, newHotspotTracker tn sc = some t →
      recordRequest σ t key = none) := by
  refine ⟨?_, ?_, ?_, ?_⟩
  · intro hsc
    refine ⟨{ shards := List.replicate sc.toNat (newShard tn), numShards := sc,
              topN := tn, cache := none, update := false, stopClosed := false,
              withCache := false }, ?_⟩
    simp [newHotspotTracker, Int.not_lt.mpr hsc]
  · intro hsc
    simp [newHotspotTracker, hsc]
  · intro t ht
    have : t = { shards := [], numShards := 0, topN := tn, cache := none,
                 update := false, stopClosed := false, withCache := false } := by
      simp [newHotspotTracker] at ht
      exact ht.symm
    subst this
    simp [recordRequest, shardIndex]
  · intro hsc htn t ht
    have ht' : t = { shards := List.replicate sc.toNat (newShard tn), numShards := sc,
                     topN := tn, cache := none, update := false, stopClosed := false,
                     withCache := false } := by
      simp [newHotspotTracker, Int.not_lt.mpr (le_of_lt hsc)] at ht
      exact ht.symm
    subst ht'
    have hsc0 : sc ≠ 0 := by omega
    simp only [recordRequest, shardIndex, hsc0, if_false]
    have hmod0 : 0 ≤ (Int.ofNat (fnv32a (strBytes key))).tmod sc :=
      Int.tmod_nonneg sc (by exact Int.ofNat_nonneg _)
    have hmodlt : (Int.ofNat (fnv32a (strBytes key))).tmod sc < sc :=
      Int.tmod_lt_of_pos _ hsc
    have hlt : ((Int.ofNat (fnv32a (strBytes key))).tmod sc).toNat < sc.toNat := by
      omega
    have hget : (List.replicate sc.toNat (newShard tn)).get?
        ((Int.ofNat (fnv32a (strBytes key))).tmod sc).toNat = some (newShard tn) := by
      rw [List.get?_eq_getElem?, List.getElem?_replicate, if_pos hlt]
    simp only [hget]
    have hrec : shardRecordRequest σ (newShard tn) key = none := by
      simp only [shardRecordRequest, newShard, kfLookup, List.find?_nil]
      simp only [processKeyFreq]
      have : ¬ ((([] : List Nat).length : Int) < tn) := by
        simp only [List.length_nil, Int.ofNat_zero]
        omega
      rw [if_neg this]
      rfl
    simp [hrec]

/-- Witness for C4's amended statement at topN = -5: with shardCount 0
the first write panics in the router, with shardCount 1 it panics in the
admission test. -/
theorem C4_no_validation_witness :
    recordRequest [] { shards := [], numShards := 0, topN := -5, cache := none,
                       update := false, stopClosed := false, withCache := false } "x" = none ∧
    recordRequest [] { shards := [newShard (-5)], numShards := 1, topN := -5, cache := none,
                       update := false, stopClosed := false, withCache := false } "x" = none :=
  ⟨(C4_no_validation_fails_on_first_write (-5) 0 "x" []).2.2.1 _ (by decide),
   (C4_no_validation_fails_on_first_write (-5) 1 "x" []).2.2.2 (by decide) (by decide) _ (by decide)⟩

/-! ## C10 -/

/-- C10: Close on a tracker built without the cache is a safe no-op: the
close of the stop channel is behind the withCache flag, so Close returns
without failing and the tracker is unchanged. -/
theorem C10_close_without_cache_noop (ht : HotspotTracker)
    (h : ht.withCache = false) : Close ht = some ht := by
  simp [Close, h]

/-- Witness for C10 on a concretely constructed cache-less tracker. -/
theorem C10_close_witness :
    Close { shards := [newShard 3], numShards := 1, topN := 3, cache := none,
            update := false, stopClosed := false, withCache := false }
      = some { shards := [newShard 3], numShards := 1, topN := 3, cache := none,
               update := false, stopClosed := false, withCache := false } :=
  C10_close_without_cache_noop _ rfl

/-! ## Basic store lemmas -/

theorem length_setCell (σ : Store) (p : Nat) (c : KeyFreq) :
    (setCell σ p c).length = σ.length := List.length_set σ p c

theorem cell_setCell_self (σ : Store) (p : Nat) (c : KeyFreq) (hp : p < σ.length) :
    cell (setCell σ p c) p = c := by
  simp [cell, setCell, List.getD_eq_getElem?_getD, List.getElem?_set_self hp]

theorem cell_setCell_ne (σ : Store) (p q : Nat) (c : KeyFreq) (hpq : p ≠ q) :
    cell (setCell σ p c) q = cell σ q := by
  simp [cell, setCell, List.getD_eq_getElem?_getD, List.getElem?_set_ne hpq]

theorem setCell_oor (σ : Store) (p : Nat) (c : KeyFreq) (hp : σ.length ≤ p) :
    setCell σ p c = σ := by
  simp [setCell, List.set_eq_of_length_le hp]

theorem cell_append_self (σ : Store) (c : KeyFreq) :
    cell (σ ++ [c]) σ.length = c := by
  simp [cell, List.getD_eq_getElem?_getD, List.getElem?_append_right (le_refl σ.length)]

theorem cell_append_lt (σ : Store) (c : KeyFreq) (q : Nat) (hq : q < σ.length) :
    cell (σ ++ [c]) q = cell σ q := by
  simp [cell, List.getD_eq_getElem?_getD, List.getElem?_append, hq]

/-- The store changed only in Index fields: same length, and every
record keeps its key and its frequency. -/
def PresKF (σ σ2 : Store) : Prop :=
  σ2.length = σ.length ∧
  ∀ id, (cell σ2 id).key = (cell σ id).key ∧ (cell σ2 id).freq = (cell σ id).freq

theorem PresKF.rfl (σ : Store) : PresKF σ σ := ⟨Eq.refl _, fun _ => ⟨Eq.refl _, Eq.refl _⟩⟩

theorem PresKF.trans {σ1 σ2 σ3 : Store} (h1 : PresKF σ1 σ2) (h2 : PresKF σ2 σ3) :
    PresKF σ1 σ3 :=
  ⟨h2.1.trans h1.1, fun id =>
    ⟨((h2.2 id).1).trans (h1.2 id).1, ((h2.2 id).2).trans (h1.2 id).2⟩⟩

/-- Writing back a record with only its Index field changed preserves
keys and frequencies. -/
theorem presKF_setIndex (σ : Store) (p : Nat) (x : Int) :
    PresKF σ (setCell σ p { cell σ p with index := x }) := by
  by_cases hp : p < σ.length
  · refine ⟨length_setCell σ p _, fun id => ?_⟩
    by_cases hid : p = id
    · subst hid
      rw [cell_setCell_self σ p _ hp]
      exact ⟨Eq.refl _, Eq.refl _⟩
    · rw [cell_setCell_ne σ p id _ hid]
      exact ⟨Eq.refl _, Eq.refl _⟩
  · rw [setCell_oor σ p _ (Nat.le_of_not_lt hp)]
    exact PresKF.rfl σ

/-! ## Transposition of two list positions is a permutation -/

theorem set_headD_perm {α : Type} (d a : α) :
    ∀ (t : List α) (m : Nat), m < t.length → (t.getD m d :: t.set m a).Perm (a :: t) := by
  intro t
  induction t with
  | nil => intro m hm; exact absurd hm (Nat.not_lt_zero m)
  | cons b s ih =>
    intro m hm
    cases m with
    | zero => exact List.Perm.swap a b s
    | succ k =>
      have hk : k < s.length := Nat.lt_of_succ_lt_succ hm
      have step1 : (s.getD k d :: b :: s.set k a).Perm (b :: s.getD k d :: s.set k a) :=
        List.Perm.swap b (s.getD k d) (s.set k a)
      have step2 : (b :: s.getD k d :: s.set k a).Perm (b :: a :: s) :=
        List.Perm.cons b (ih k hk)
      have step3 : (b :: a :: s).Perm (a :: b :: s) := List.Perm.swap a b s
      simpa using (step1.trans step2).trans step3

theorem set_set_getD_perm {α : Type} (d : α) :
    ∀ (l : List α) (iN jN : Nat), iN < l.length → jN < l.length →
      ((l.set iN (l.getD jN d)).set jN (l.getD iN d)).Perm l := by
  intro l
  induction l with
  | nil => intro iN jN hi _; exact absurd hi (Nat.not_lt_zero iN)
  | cons a t ih =>
    intro iN jN hi hj
    cases iN with
    | zero =>
      cases jN with
      | zero => simp
      | succ m =>
        have hm : m < t.length := Nat.lt_of_succ_lt_succ hj
        simpa using set_headD_perm d a t m hm
    | succ k =>
      have hk : k < t.length := Nat.lt_of_succ_lt_succ hi
      cases jN with
      | zero =>
        simpa using set_headD_perm d a t k hk
      | succ m =>
        have hm : m < t.length := Nat.lt_of_succ_lt_succ hj
        simpa using List.Perm.cons a (ih k m hk hm)

theorem getD_set_self {α : Type} (l : List α) (i : Nat) (a d : α) (hi : i < l.length) :
    (l.set i a).getD i d = a := by
  simp [List.getD_eq_getElem?_getD, List.getElem?_set_self hi]

theorem getD_set_ne {α : Type} (l : List α) (i j : Nat) (a d : α) (hij : i ≠ j) :
    (l.set i a).getD j d = l.getD j d := by
  simp [List.getD_eq_getElem?_getD, List.getElem?_set_ne hij]

theorem getD_lt_eq_getElem? {α : Type} (l : List α) (q : Nat) (d : α) (hq : q < l.length) :
    l[q]? = some (l.getD q d) := by
  rw [List.getElem?_eq_getElem hq]
  simp [List.getD_eq_getElem?_getD, List.getElem?_eq_getElem hq]

/-! ## MinHeap.Swap lemmas -/

theorem minHeapSwap_eq (σ : Store) (h : List Nat) (i j : Int) :
    minHeapSwap σ h i j =
      if (h.length : Int) ≤ i ∨ (h.length : Int) ≤ j then (σ, h)
      else
        (setCell (setCell σ (idAt h j) { cell σ (idAt h j) with index := i }) (idAt h i)
           { cell (setCell σ (idAt h j) { cell σ (idAt h j) with index := i }) (idAt h i) with
               index := j },
         (h.set i.toNat (idAt h j)).set j.toNat (idAt h i)) := rfl

theorem minHeapSwap_presKF (σ : Store) (h : List Nat) (i j : Int) :
    PresKF σ (minHeapSwap σ h i j).1 := by
  rw [minHeapSwap_eq]
  split
  · exact PresKF.rfl σ
  · exact (presKF_setIndex σ (idAt h j) i).trans (presKF_setIndex _ (idAt h i) j)

theorem minHeapSwap_perm (σ : Store) (h : List Nat) (i j : Int) :
    (minHeapSwap σ h i j).2.Perm h := by
  rw [minHeapSwap_eq]
  split
  · exact List.Perm.refl h
  · rename_i hguard
    push_neg at hguard
    by_cases hlen : h.length = 0
    · have : h = [] := List.length_eq_zero.mp hlen
      subst this
      simp
    · have hi : i.toNat < h.length := by omega
      have hj : j.toNat < h.length := by omega
      exact set_set_getD_perm 0 h i.toNat j.toNat hi hj

theorem minHeapSwap_length (σ : Store) (h : List Nat) (i j : Int) :
    (minHeapSwap σ h i j).2.length = h.length :=
  ((minHeapSwap_perm σ h i j).length_eq)

theorem minHeapSwap_snd_getD (σ : Store) (h : List Nat) (i j : Int) (q : Nat)
    (hi0 : 0 ≤ i) (hilt : i < (h.length : Int)) (_hj0 : 0 ≤ j) (hjlt : j < (h.length : Int)) :
    (minHeapSwap σ h i j).2.getD q 0 =
      if q = j.toNat then h.getD i.toNat 0
      else if q = i.toNat then h.getD j.toNat 0
      else h.getD q 0 := by
  have hg : ¬ ((h.length : Int) ≤ i ∨ (h.length : Int) ≤ j) := by omega
  rw [minHeapSwap_eq, if_neg hg]
  have hiN : i.toNat < h.length := by omega
  have hjN : j.toNat < h.length := by omega
  by_cases hqj : q = j.toNat
  · subst hqj
    rw [if_pos (Eq.refl _)]
    have : j.toNat < (h.set i.toNat (idAt h j)).length := by
      rw [List.length_set]; exact hjN
    rw [getD_set_self _ _ _ _ this]
    rfl
  · rw [if_neg hqj]
    rw [getD_set_ne _ _ _ _ _ (fun hc => hqj hc.symm)]
    by_cases hqi : q = i.toNat
    · subst hqi
      rw [if_pos (Eq.refl _), getD_set_self _ _ _ _ hiN]
      rfl
    · rw [if_neg hqi, getD_set_ne _ _ _ _ _ (fun hc => hqi hc.symm)]

/-! ## Sift-up and sift-down preserve the heap membership, keys and
frequencies -/

theorem heapUp_presKF : ∀ (fuel : Nat) (σ : Store) (h : List Nat) (j : Int),
    PresKF σ (heapUp σ h j fuel).1 := by
  intro fuel
  induction fuel with
  | zero => intro σ h j; exact PresKF.rfl σ
  | succ k ih =>
    intro σ h j
    rw [heapUp]
    split
    · exact PresKF.rfl σ
    · exact (minHeapSwap_presKF σ h ((j - 1).tdiv 2) j).trans (ih _ _ _)

theorem heapUp_perm : ∀ (fuel : Nat) (σ : Store) (h : List Nat) (j : Int),
    (heapUp σ h j fuel).2.Perm h := by
  intro fuel
  induction fuel with
  | zero => intro σ h j; exact List.Perm.refl h
  | succ k ih =>
    intro σ h j
    rw [heapUp]
    split
    · exact List.Perm.refl h
    · exact (ih _ _ _).trans (minHeapSwap_perm σ h ((j - 1).tdiv 2) j)

theorem heapDownLoop_presKF : ∀ (fuel : Nat) (σ : Store) (h : List Nat) (i n : Int),
    PresKF σ (heapDownLoop σ h i n fuel).1 := by
  intro fuel
  induction fuel with
  | zero => intro σ h i n; exact PresKF.rfl σ
  | succ k ih =>
    intro σ h i n
    rw [heapDownLoop]
    split
    · exact PresKF.rfl σ
    · dsimp only
      split <;> split
      · exact (minHeapSwap_presKF σ h i _).trans (ih _ _ _ _)
      · exact PresKF.rfl σ
      · exact (minHeapSwap_presKF σ h i _).trans (ih _ _ _ _)
      · exact PresKF.rfl σ

theorem heapDownLoop_perm : ∀ (fuel : Nat) (σ : Store) (h : List Nat) (i n : Int),
    (heapDownLoop σ h i n fuel).2.1.Perm h := by
  intro fuel
  induction fuel with
  | zero => intro σ h i n; exact List.Perm.refl h
  | succ k ih =>
    intro σ h i n
    rw [heapDownLoop]
    split
    · exact List.Perm.refl h
    · dsimp only
      split <;> split
      · exact (ih _ _ _ _).trans (minHeapSwap_perm σ h i _)
      · exact List.Perm.refl h
      · exact (ih _ _ _ _).trans (minHeapSwap_perm σ h i _)
      · exact List.Perm.refl h

theorem heapDownLoop_frame : ∀ (fuel : Nat) (σ : Store) (h : List Nat) (i n : Int),
    n ≤ (h.length : Int) → ∀ q : Nat, n ≤ (q : Int) →
    (heapDownLoop σ h i n fuel).2.1.getD q 0 = h.getD q 0 := by
  intro fuel
  induction fuel with
  | zero => intro σ h i n _ q _; rfl
  | succ k ih =>
    intro σ h i n hn q hq
    rw [heapDownLoop]
    split
    · rfl
    · rename_i hguard
      dsimp only
      split
      · rename_i hj
        split
        · have h0i : 0 ≤ i := by omega
          have hlen2 : n ≤ ((minHeapSwap σ h i (2 * i + 1 + 1)).2.length : Int) := by
            rw [minHeapSwap_length]; exact hn
          rw [ih (minHeapSwap σ h i (2 * i + 1 + 1)).1 (minHeapSwap σ h i (2 * i + 1 + 1)).2
            (2 * i + 1 + 1) n hlen2 q hq]
          rw [minHeapSwap_snd_getD σ h i (2 * i + 1 + 1) q h0i (by omega) (by omega)
            (by omega)]
          rw [if_neg (by omega), if_neg (by omega)]
        · rfl
      · rename_i hj
        split
        · have h0i : 0 ≤ i := by omega
          have hlen2 : n ≤ ((minHeapSwap σ h i (2 * i + 1)).2.length : Int) := by
            rw [minHeapSwap_length]; exact hn
          rw [ih (minHeapSwap σ h i (2 * i + 1)).1 (minHeapSwap σ h i (2 * i + 1)).2
            (2 * i + 1) n hlen2 q hq]
          rw [minHeapSwap_snd_getD σ h i (2 * i + 1) q h0i (by omega) (by omega) (by omega)]
          rw [if_neg (by omega), if_neg (by omega)]
        · rfl

theorem heapDown_presKF (σ : Store) (h : List Nat) (i n : Int) :
    PresKF σ (heapDown σ h i n).1 := heapDownLoop_presKF _ σ h i n

theorem heapDown_perm (σ : Store) (h : List Nat) (i n : Int) :
    (heapDown σ h i n).2.1.Perm h := heapDownLoop_perm _ σ h i n

theorem heapDown_frame (σ : Store) (h : List Nat) (i n : Int)
    (hn : n ≤ (h.length : Int)) (q : Nat) (hq : n ≤ (q : Int)) :
    (heapDown σ h i n).2.1.getD q 0 = h.getD q 0 :=
  heapDownLoop_frame _ σ h i n hn q hq

/-! ## heap.Push, heap.Pop and heap.Fix specifications -/

theorem heapPush_presKF (σ : Store) (h : List Nat) (id : Nat) :
    PresKF σ (heapPush σ h id).1 :=
  (presKF_setIndex σ id (h.length : Int)).trans (heapUp_presKF _ _ _ _)

theorem heapPush_perm (σ : Store) (h : List Nat) (id : Nat) :
    (heapPush σ h id).2.Perm (id :: h) :=
  (heapUp_perm _ _ _ _).trans (List.perm_append_singleton id h)

theorem heapPush_length (σ : Store) (h : List Nat) (id : Nat) :
    (heapPush σ h id).2.length = h.length + 1 := by
  have := (heapPush_perm σ h id).length_eq
  simpa using this

theorem heapFix_presKF (σ : Store) (h : List Nat) (i : Int) :
    PresKF σ (heapFix σ h i).1 := by
  unfold heapFix
  dsimp only
  split
  · exact heapDown_presKF σ h i _
  · exact (heapDown_presKF σ h i _).trans (heapUp_presKF _ _ _ _)

theorem heapFix_perm (σ : Store) (h : List Nat) (i : Int) :
    (heapFix σ h i).2.Perm h := by
  unfold heapFix
  dsimp only
  split
  · exact heapDown_perm σ h i _
  · exact (heapUp_perm _ _ _ _).trans (heapDown_perm σ h i _)

theorem heapPop_spec (σ : Store) (h : List Nat) (hne : h ≠ []) :
    ∃ σ2 h2, heapPop σ h = some (σ2, h2, h.getD 0 0) ∧ PresKF σ σ2 ∧
      (h.getD 0 0 :: h2).Perm h ∧ h2.length = h.length - 1 := by
  have hlen : 0 < h.length := List.length_pos.mpr hne
  set n : Int := (h.length : Int) - 1 with hn
  set P := minHeapSwap σ h 0 n with hP
  set Q := heapDown P.1 P.2 0 n with hQ
  have hswlen : P.2.length = h.length := minHeapSwap_length σ h 0 n
  have hdlen : Q.2.1.length = h.length := (heapDown_perm P.1 P.2 0 n).length_eq.trans hswlen
  have hframe : Q.2.1.getD (h.length - 1) 0 = P.2.getD (h.length - 1) 0 :=
    heapDown_frame P.1 P.2 0 n (by rw [hswlen]; omega) _ (by omega)
  have hswq : P.2.getD (h.length - 1) 0 = h.getD 0 0 := by
    rw [hP, minHeapSwap_snd_getD σ h 0 n (h.length - 1) (le_refl 0) (by omega) (by omega)
      (by omega)]
    rw [if_pos (by omega)]
    rfl
  have hlast : Q.2.1.getLast? = some (h.getD 0 0) := by
    rw [List.getLast?_eq_getElem?, hdlen, getD_lt_eq_getElem? _ _ 0 (by omega)]
    rw [hframe, hswq]
  have hpop : heapPop σ h
      = some (setCell Q.1 (h.getD 0 0) { cell Q.1 (h.getD 0 0) with index := -1 },
              Q.2.1.dropLast, h.getD 0 0) := by
    unfold heapPop
    dsimp only
    rw [← hn, ← hP, ← hQ]
    unfold minHeapPop
    rw [hlast]
  refine ⟨_, _, hpop, ?_, ?_, ?_⟩
  · exact ((minHeapSwap_presKF σ h 0 n).trans (heapDown_presKF P.1 P.2 0 n)).trans
      (presKF_setIndex Q.1 (h.getD 0 0) (-1))
  · have hq21 : Q.2.1.Perm h := (heapDown_perm P.1 P.2 0 n).trans (minHeapSwap_perm σ h 0 n)
    have hsplit : Q.2.1.dropLast ++ [h.getD 0 0] = Q.2.1 :=
      List.dropLast_append_getLast? _ hlast
    have step1 : (h.getD 0 0 :: Q.2.1.dropLast).Perm (Q.2.1.dropLast ++ [h.getD 0 0]) :=
      (List.perm_append_singleton _ _).symm
    rw [hsplit] at step1
    exact step1.trans hq21
  · rw [List.length_dropLast, hdlen]

/-! ## Lookup-table lemmas -/

theorem kfLookup_none_mem (kfs : List (String × Nat)) (k : String)
    (hn : kfLookup kfs k = none) : ∀ p ∈ kfs, p.1 ≠ k := by
  intro p hp
  unfold kfLookup at hn
  rcases hfind : kfs.find? (fun q => decide (q.1 = k)) with _ | q
  · have := List.find?_eq_none.mp hfind p hp
    simpa using this
  · rw [hfind] at hn
    exact absurd hn (by simp)

theorem kfErase_eq_of_notmem (kfs : List (String × Nat)) (k : String)
    (hmem : ∀ p ∈ kfs, p.1 ≠ k) : kfErase kfs k = kfs := by
  unfold kfErase
  rw [List.filter_eq_self]
  intro p hp
  simpa using hmem p hp

theorem kfErase_mem_sub (kfs : List (String × Nat)) (k : String) :
    ∀ p ∈ kfErase kfs k, p ∈ kfs := by
  intro p hp
  exact (List.mem_filter.mp hp).1

/-! ## C9 -/

/-- C9: RecordRequest of an already tracked key increments exactly that
record's frequency by one and changes nothing else observable: the
lookup table is untouched, the heap keeps exactly the same records (as a
multiset), and every other record keeps its key and frequency. -/
theorem C9_tracked_increment (σ : Store) (s : Shard) (key : String) (id : Nat)
    (htr : kfLookup s.keyFreqs key = some id) (hid : id < σ.length) :
    ∃ σ2 h2, shardRecordRequest σ s key = some (σ2, { s with minHeap := h2 }) ∧
      h2.Perm s.minHeap ∧
      (cell σ2 id).key = (cell σ id).key ∧
      (cell σ2 id).freq = (cell σ id).freq + 1 ∧
      (∀ j, j ≠ id → (cell σ2 j).key = (cell σ j).key ∧
        (cell σ2 j).freq = (cell σ j).freq) ∧
      σ2.length = σ.length := by
  have hcell1 : cell (setCell σ id { cell σ id with freq := (cell σ id).freq + 1 }) id
      = { cell σ id with freq := (cell σ id).freq + 1 } :=
    cell_setCell_self σ id _ hid
  set σ1 := setCell σ id { cell σ id with freq := (cell σ id).freq + 1 } with hσ1
  have hpres : PresKF σ1 (heapFix σ1 s.minHeap (cell σ1 id).index).1 :=
    heapFix_presKF σ1 s.minHeap _
  have hmain : shardRecordRequest σ s key
      = some ((heapFix σ1 s.minHeap (cell σ1 id).index).1,
              { s with minHeap := (heapFix σ1 s.minHeap (cell σ1 id).index).2 }) := by
    unfold shardRecordRequest
    rw [htr]
  refine ⟨_, _, hmain, ?_, ?_, ?_, ?_, ?_⟩
  · exact heapFix_perm σ1 s.minHeap _
  · rw [(hpres.2 id).1, hcell1]
  · rw [(hpres.2 id).2, hcell1]
  · intro j hj
    have hne : cell σ1 j = cell σ j := cell_setCell_ne σ id j _ (fun hc => hj hc.symm)
    exact ⟨(hpres.2 j).1.trans (congrArg KeyFreq.key hne),
           (hpres.2 j).2.trans (congrArg KeyFreq.freq hne)⟩
  · rw [hpres.1, hσ1, length_setCell]

/-- Witness for C9: one tracked record with frequency 1 is incremented to 2. -/
theorem C9_tracked_increment_witness :
    ∃ σ2 h2, shardRecordRequest [({ key := "a", freq := 1, index := 0 } : KeyFreq)]
        (⟨2, [0], [("a", 0)]⟩ : Shard) "a"
        = some (σ2, { (⟨2, [0], [("a", 0)]⟩ : Shard) with minHeap := h2 }) ∧
      h2.Perm (⟨2, [0], [("a", 0)]⟩ : Shard).minHeap ∧
      (cell σ2 0).key = (cell [{ key := "a", freq := 1, index := 0 }] 0).key ∧
      (cell σ2 0).freq = (cell [{ key := "a", freq := 1, index := 0 }] 0).freq + 1 ∧
      (∀ j, j ≠ 0 → (cell σ2 j).key = (cell [{ key := "a", freq := 1, index := 0 }] j).key ∧
        (cell σ2 j).freq = (cell [{ key := "a", freq := 1, index := 0 }] j).freq) ∧
      σ2.length = ([{ key := "a", freq := 1, index := 0 }] : Store).length :=
  C9_tracked_increment [{ key := "a", freq := 1, index := 0 }] ⟨2, [0], [("a", 0)]⟩ "a" 0
    (by decide) (by decide)

/-! ## C2 -/

/-- C2: RecordRequest of an untracked key follows the admission
algorithm exactly.  With room in the heap the fresh record (frequency 1)
is inserted into both heap and lookup table; with a full heap it is
admitted only when the root's frequency is at most the candidate's 1, in
which case the root is evicted from both containers; otherwise heap and
lookup table are left exactly as they were (the fresh record is
allocated and dropped), so a later RecordRequest of the same key starts
from frequency 1 again. -/
theorem C2_admission (σ : Store) (s : Shard) (key : String)
    (hnew : kfLookup s.keyFreqs key = none)
    (hv : ∀ id ∈ s.minHeap, id < σ.length) :
    ((s.minHeap.length : Int) < s.topN →
      ∃ σ2 h2, shardRecordRequest σ s key
          = some (σ2, { s with minHeap := h2,
                               keyFreqs := (key, σ.length) :: s.keyFreqs }) ∧
        h2.Perm (σ.length :: s.minHeap) ∧
        (cell σ2 σ.length).key = key ∧ (cell σ2 σ.length).freq = 1 ∧
        ∀ id, id < σ.length →
          (cell σ2 id).key = (cell σ id).key ∧ (cell σ2 id).freq = (cell σ id).freq) ∧
    (∀ root rest, s.minHeap = root :: rest → s.topN ≤ (s.minHeap.length : Int) →
      ((cell σ root).freq ≤ 1 →
        ∃ σ2 h2, shardRecordRequest σ s key
            = some (σ2, { s with minHeap := h2,
                                 keyFreqs := (key, σ.length) ::
                                   kfErase s.keyFreqs (cell σ root).key }) ∧
          h2.Perm (σ.length :: rest) ∧
          (cell σ2 σ.length).key = key ∧ (cell σ2 σ.length).freq = 1 ∧
          ∀ id, id < σ.length →
            (cell σ2 id).key = (cell σ id).key ∧ (cell σ2 id).freq = (cell σ id).freq) ∧
      (1 < (cell σ root).freq →
        shardRecordRequest σ s key
          = some (σ ++ [{ key := key, freq := 1, index := 0 }], s))) := by
  set σ1 := σ ++ [{ key := key, freq := 1, index := 0 }] with hσ1def
  have hA : shardRecordRequest σ s key = processKeyFreq σ1 s σ.length := by
    unfold shardRecordRequest
    rw [hnew]
  have hcn : cell σ1 σ.length = { key := key, freq := 1, index := 0 } := by
    rw [hσ1def]
    exact cell_append_self σ _
  have hclt : ∀ id, id < σ.length → cell σ1 id = cell σ id := by
    intro id hid
    rw [hσ1def]
    exact cell_append_lt σ _ id hid
  constructor
  · intro hlt
    set P := heapPush σ1 s.minHeap σ.length with hPdef
    have hpush : PresKF σ1 P.1 := heapPush_presKF σ1 s.minHeap σ.length
    have hkey : (cell P.1 σ.length).key = key :=
      ((hpush.2 σ.length).1).trans (congrArg KeyFreq.key hcn)
    have hfrq : (cell P.1 σ.length).freq = 1 :=
      ((hpush.2 σ.length).2).trans (congrArg KeyFreq.freq hcn)
    have hins : kfInsert s.keyFreqs key σ.length = (key, σ.length) :: s.keyFreqs := by
      unfold kfInsert
      rw [kfErase_eq_of_notmem s.keyFreqs key (kfLookup_none_mem _ _ hnew)]
    have hmain : shardRecordRequest σ s key
        = some (P.1, { s with minHeap := P.2,
                              keyFreqs := (key, σ.length) :: s.keyFreqs }) := by
      rw [hA]
      unfold processKeyFreq
      rw [if_pos hlt]
      dsimp only
      rw [← hPdef, hkey, hins]
    refine ⟨_, _, hmain, heapPush_perm _ _ _, hkey, hfrq, ?_⟩
    intro id hid
    exact ⟨((hpush.2 id).1).trans (congrArg KeyFreq.key (hclt id hid)),
           ((hpush.2 id).2).trans (congrArg KeyFreq.freq (hclt id hid))⟩
  · intro root rest hheap hfull
    have hnotlt : ¬ ((s.minHeap.length : Int) < s.topN) := by omega
    have hhead : s.minHeap.head? = some root := by rw [hheap]; rfl
    have hrootlt : root < σ.length := hv root (by rw [hheap]; exact List.mem_cons_self _ _)
    have hcr : cell σ1 root = cell σ root := hclt root hrootlt
    constructor
    · intro hle
      obtain ⟨σp, hp, hpop, hpres, hperm, hplen⟩ :=
        heapPop_spec σ1 (root :: rest) (List.cons_ne_nil root rest)
      have hcond : (cell σ1 root).freq ≤ (cell σ1 σ.length).freq := by
        rw [hcr, hcn]
        exact hle
      have hrk : (cell σp root).key = (cell σ root).key :=
        ((hpres.2 root).1).trans (congrArg KeyFreq.key hcr)
      set P := heapPush σp hp σ.length with hPdef
      have hpush : PresKF σp P.1 := heapPush_presKF σp hp σ.length
      have hkey2 : (cell P.1 σ.length).key = key :=
        (((hpush.2 σ.length).1).trans ((hpres.2 σ.length).1)).trans
          (congrArg KeyFreq.key hcn)
      have hfrq2 : (cell P.1 σ.length).freq = 1 :=
        (((hpush.2 σ.length).2).trans ((hpres.2 σ.length).2)).trans
          (congrArg KeyFreq.freq hcn)
      have hins2 : kfInsert (kfErase s.keyFreqs (cell σ root).key) key σ.length
          = (key, σ.length) :: kfErase s.keyFreqs (cell σ root).key := by
        unfold kfInsert
        rw [kfErase_eq_of_notmem _ key
          (fun p hp2 => kfLookup_none_mem _ _ hnew p (kfErase_mem_sub _ _ p hp2))]
      have hmain : shardRecordRequest σ s key
          = some (P.1, { s with minHeap := P.2,
                                keyFreqs := (key, σ.length) ::
                                  kfErase s.keyFreqs (cell σ root).key }) := by
        rw [hA]
        unfold processKeyFreq
        rw [if_neg hnotlt, hhead]
        dsimp only
        rw [if_pos hcond, hheap, hpop]
        dsimp only
        simp only [List.getD_cons_zero]
        rw [← hPdef, hrk, hkey2, hins2]
      refine ⟨_, _, hmain, ?_, hkey2, hfrq2, ?_⟩
      · have hper : hp.Perm rest := List.Perm.cons_inv hperm
        exact (heapPush_perm σp hp σ.length).trans (List.Perm.cons σ.length hper)
      · intro id hid
        exact ⟨(((hpush.2 id).1).trans ((hpres.2 id).1)).trans
                 (congrArg KeyFreq.key (hclt id hid)),
               (((hpush.2 id).2).trans ((hpres.2 id).2)).trans
                 (congrArg KeyFreq.freq (hclt id hid))⟩
    · intro hgt
      have hcond : ¬ ((cell σ1 root).freq ≤ (cell σ1 σ.length).freq) := by
        rw [hcr, hcn]
        show ¬ ((cell σ root).freq ≤ 1)
        omega
      rw [hA]
      unfold processKeyFreq
      rw [if_neg hnotlt, hhead]
      dsimp only
      rw [if_neg hcond]

/-- Witness for C2 at a full shard whose minimum frequency exceeds 1:
the candidate "y" is dropped, the shard is unchanged. -/
theorem C2_admission_witness :
    shardRecordRequest [({ key := "x", freq := 5, index := 0 } : KeyFreq)]
        (⟨1, [0], [("x", 0)]⟩ : Shard) "y"
      = some ([{ key := "x", freq := 5, index := 0 },
               { key := "y", freq := 1, index := 0 }],
              (⟨1, [0], [("x", 0)]⟩ : Shard)) :=
  ((C2_admission [{ key := "x", freq := 5, index := 0 }] ⟨1, [0], [("x", 0)]⟩ "y"
      (by decide) (by decide)).2 0 [] (by decide) (by decide)).2 (by decide)

/-! ## Heap-order development

`fval σ h q` is the frequency stored at heap position `q`.  Positions use
the zero-based binary-tree layout of container/heap; `par` is the parent
position.  All sift operations only move records around and rewrite
Index fields, so frequencies can always be read through the store that
entered the computation. -/

def par (c : Nat) : Nat := (c - 1) / 2

def fval (σ : Store) (h : List Nat) (q : Nat) : Int := (cell σ (h.getD q 0)).freq

theorem par_lt (c : Nat) (hc : 0 < c) : par c < c := by
  unfold par; omega

theorem child_of_par (c : Nat) (hc : 0 < c) : c = 2 * par c + 1 ∨ c = 2 * par c + 2 := by
  unfold par; omega

theorem par_child1 (p : Nat) : par (2 * p + 1) = p := by
  unfold par; omega

theorem par_child2 (p : Nat) : par (2 * p + 2) = p := by
  unfold par; omega

theorem fval_eq_of_presKF (σ σ2 : Store) (l : List Nat) (q : Nat) (hp : PresKF σ σ2) :
    fval σ2 l q = fval σ l q := (hp.2 _).2

theorem minHeapLess_true_iff (σ : Store) (h : List Nat) (a b : Int) :
    minHeapLess σ h a b = true ↔
      (a < (h.length : Int) ∧ b < (h.length : Int) ∧
        fval σ h a.toNat < fval σ h b.toNat) := by
  unfold minHeapLess
  split
  · rename_i hg
    simp only [Bool.false_eq_true, false_iff]
    intro hcon
    omega
  · rename_i hg
    push_neg at hg
    simp only [decide_eq_true_eq]
    unfold idAt fval
    constructor
    · intro hlt
      exact ⟨hg.1, hg.2, hlt⟩
    · intro hlt
      exact hlt.2.2

theorem fval_swap (σ0 σ : Store) (h : List Nat) (i j : Int) (q : Nat)
    (hi0 : 0 ≤ i) (hilt : i < (h.length : Int)) (hj0 : 0 ≤ j)
    (hjlt : j < (h.length : Int)) :
    fval σ0 (minHeapSwap σ h i j).2 q =
      if q = j.toNat then fval σ0 h i.toNat
      else if q = i.toNat then fval σ0 h j.toNat
      else fval σ0 h q := by
  unfold fval
  rw [minHeapSwap_snd_getD σ h i j q hi0 hilt hj0 hjlt]
  by_cases h1 : q = j.toNat
  · rw [if_pos h1, if_pos h1]
  · rw [if_neg h1, if_neg h1]
    by_cases h2 : q = i.toNat
    · rw [if_pos h2, if_pos h2]
    · rw [if_neg h2, if_neg h2]

/-- Exit step of sift-down when the hole has no child inside the bound:
the one-hole invariant already gives the heap order. -/
theorem downExit_noChild (σ : Store) (h : List Nat) (hole st n : Nat)
    (hnc : n ≤ 2 * hole + 1)
    (H1 : ∀ c, 0 < c → c < n → st ≤ par c → par c ≠ hole →
      fval σ h (par c) ≤ fval σ h c) :
    ∀ c, 0 < c → c < n → st ≤ par c → fval σ h (par c) ≤ fval σ h c := by
  intro c hc0 hcn hst
  by_cases hpc : par c = hole
  · exfalso
    have := child_of_par c hc0
    omega
  · exact H1 c hc0 hcn hst hpc

/-- Exit step of sift-down when the sinking value fits above the least
child: the hole's own edges become ordered. -/
theorem downExit_fits (σ : Store) (h : List Nat) (hole st n jN : Nat)
    (hminj : ∀ c, (c = 2 * hole + 1 ∨ c = 2 * hole + 2) → c < n →
      fval σ h jN ≤ fval σ h c)
    (hnl : fval σ h hole ≤ fval σ h jN)
    (H1 : ∀ c, 0 < c → c < n → st ≤ par c → par c ≠ hole →
      fval σ h (par c) ≤ fval σ h c) :
    ∀ c, 0 < c → c < n → st ≤ par c → fval σ h (par c) ≤ fval σ h c := by
  intro c hc0 hcn hst
  by_cases hpc : par c = hole
  · have hck := child_of_par c hc0
    rw [hpc] at hck
    rw [hpc]
    exact le_trans hnl (hminj c hck hcn)
  · exact H1 c hc0 hcn hst hpc

/-- Swap step of sift-down: after exchanging the hole with its least
child, the one-hole invariant holds again at the child's position, so
the loop's induction hypothesis applies. -/
theorem downSwapStep (σ : Store) (h : List Nat) (hole st n jN k : Nat)
    (ih : ∀ (σ2 : Store) (h2 : List Nat) (hole2 : Nat),
      n ≤ h2.length → st ≤ hole2 → n ≤ k + hole2 →
      (∀ c, 0 < c → c < n → st ≤ par c → par c ≠ hole2 →
        fval σ2 h2 (par c) ≤ fval σ2 h2 c) →
      (st < hole2 → ∀ c, c < n → par c = hole2 →
        fval σ2 h2 (par hole2) ≤ fval σ2 h2 c) →
      ∀ c, 0 < c → c < n → st ≤ par c →
        fval σ2 (heapDownLoop σ2 h2 (hole2 : Int) (n : Int) k).2.1 (par c)
          ≤ fval σ2 (heapDownLoop σ2 h2 (hole2 : Int) (n : Int) k).2.1 c)
    (hn : n ≤ h.length) (hst : st ≤ hole)
    (hholej : hole < jN) (hfuel : n ≤ k + jN)
    (hchild : jN = 2 * hole + 1 ∨ jN = 2 * hole + 2) (hjn : jN < n)
    (hminj : ∀ c, (c = 2 * hole + 1 ∨ c = 2 * hole + 2) → c < n →
      fval σ h jN ≤ fval σ h c)
    (hlt : fval σ h jN < fval σ h hole)
    (H1 : ∀ c, 0 < c → c < n → st ≤ par c → par c ≠ hole →
      fval σ h (par c) ≤ fval σ h c)
    (H2 : st < hole → ∀ c, c < n → par c = hole →
      fval σ h (par hole) ≤ fval σ h c) :
    ∀ c, 0 < c → c < n → st ≤ par c →
      fval σ (heapDownLoop (minHeapSwap σ h (hole : Int) (jN : Int)).1
          (minHeapSwap σ h (hole : Int) (jN : Int)).2 (jN : Int) (n : Int) k).2.1 (par c)
        ≤ fval σ (heapDownLoop (minHeapSwap σ h (hole : Int) (jN : Int)).1
            (minHeapSwap σ h (hole : Int) (jN : Int)).2 (jN : Int) (n : Int) k).2.1 c := by
  intro c hc0 hcn hstc
  have hjlen : jN < h.length := by omega
  have hhlen : hole < h.length := by omega
  have hswpres : PresKF σ (minHeapSwap σ h (hole : Int) (jN : Int)).1 :=
    minHeapSwap_presKF _ _ _ _
  have hswlen : (minHeapSwap σ h (hole : Int) (jN : Int)).2.length = h.length :=
    minHeapSwap_length _ _ _ _
  have hval1 : ∀ q : Nat, fval σ (minHeapSwap σ h (hole : Int) (jN : Int)).2 q =
      if q = jN then fval σ h hole else if q = hole then fval σ h jN else fval σ h q := by
    intro q
    rw [fval_swap σ σ h (hole : Int) (jN : Int) q (by omega) (by omega) (by omega)
      (by omega)]
    simp only [Int.toNat_ofNat]
  have hfv : ∀ (l : List Nat) (q : Nat),
      fval (minHeapSwap σ h (hole : Int) (jN : Int)).1 l q = fval σ l q :=
    fun l q => fval_eq_of_presKF σ _ l q hswpres
  have hparj : par jN = hole := by
    rcases hchild with h1 | h2
    · rw [h1, par_child1]
    · rw [h2, par_child2]
  have H1' : ∀ c2, 0 < c2 → c2 < n → st ≤ par c2 → par c2 ≠ jN →
      fval (minHeapSwap σ h (hole : Int) (jN : Int)).1
          (minHeapSwap σ h (hole : Int) (jN : Int)).2 (par c2)
        ≤ fval (minHeapSwap σ h (hole : Int) (jN : Int)).1
            (minHeapSwap σ h (hole : Int) (jN : Int)).2 c2 := by
    intro c2 hc20 hc2n hstc2 hpcj
    rw [hfv, hfv, hval1, hval1]
    by_cases hpc : par c2 = hole
    · have hck := child_of_par c2 hc20
      rw [hpc] at hck
      by_cases hcj : c2 = jN
      · rw [hpc, if_neg (show ¬ hole = jN by omega), if_pos rfl, if_pos hcj]
        exact le_of_lt hlt
      · rw [hpc, if_neg (show ¬ hole = jN by omega), if_pos rfl, if_neg hcj,
            if_neg (show ¬ c2 = hole by omega)]
        exact hminj c2 hck hc2n
    · by_cases hch : c2 = hole
      · subst hch
        have hplt := par_lt c2 hc20
        rw [if_neg (show ¬ par c2 = jN by omega), if_neg hpc,
            if_neg (show ¬ c2 = jN by omega), if_pos rfl]
        exact H2 (by omega) jN hjn hparj
      · have hcj : c2 ≠ jN := by
          intro hc
          exact hpc (by rw [hc, hparj])
        rw [if_neg hcj, if_neg hch, if_neg hpcj, if_neg hpc]
        exact H1 c2 hc20 hc2n hstc2 hpc
  have H2' : st < jN → ∀ c2, c2 < n → par c2 = jN →
      fval (minHeapSwap σ h (hole : Int) (jN : Int)).1
          (minHeapSwap σ h (hole : Int) (jN : Int)).2 (par jN)
        ≤ fval (minHeapSwap σ h (hole : Int) (jN : Int)).1
            (minHeapSwap σ h (hole : Int) (jN : Int)).2 c2 := by
    intro _ c2 hc2n hpcj
    rw [hfv, hfv, hval1, hval1, hparj]
    have hc20 : 0 < c2 := by
      rcases Nat.eq_zero_or_pos c2 with h0 | hp
      · exfalso
        rw [h0] at hpcj
        unfold par at hpcj
        omega
      · exact hp
    have hck := child_of_par c2 hc20
    rw [hpcj] at hck
    rw [if_neg (show ¬ hole = jN by omega), if_pos rfl,
        if_neg (show ¬ c2 = jN by omega), if_neg (show ¬ c2 = hole by omega)]
    have := H1 c2 hc20 hc2n (by omega) (by rw [hpcj]; omega)
    rw [hpcj] at this
    exact this
  have hpost := ih (minHeapSwap σ h (hole : Int) (jN : Int)).1
    (minHeapSwap σ h (hole : Int) (jN : Int)).2 jN
    (by rw [hswlen]; exact hn) (by omega) hfuel H1' H2' c hc0 hcn hstc
  rwa [hfv, hfv] at hpost

/-- Correctness of container/heap `down`: starting from a state where
every in-range edge except those leaving the hole is ordered (and, once
the hole has moved, its children fit under its parent), the loop leaves
every in-range edge with parent at least `st` ordered.  Frequencies are
always read through the entry store. -/
theorem heapDownLoop_heapFrom :
    ∀ (fuel : Nat) (σ : Store) (h : List Nat) (hole st n : Nat),
      n ≤ h.length → st ≤ hole → n ≤ fuel + hole →
      (∀ c, 0 < c → c < n → st ≤ par c → par c ≠ hole →
        fval σ h (par c) ≤ fval σ h c) →
      (st < hole → ∀ c, c < n → par c = hole →
        fval σ h (par hole) ≤ fval σ h c) →
      ∀ c, 0 < c → c < n → st ≤ par c →
        fval σ (heapDownLoop σ h (hole : Int) (n : Int) fuel).2.1 (par c)
          ≤ fval σ (heapDownLoop σ h (hole : Int) (n : Int) fuel).2.1 c := by
  intro fuel
  induction fuel with
  | zero =>
    intro σ h hole st n hn hst hfuel H1 _H2
    exact downExit_noChild σ h hole st n (by omega) H1
  | succ k ih =>
    intro σ h hole st n hn hst hfuel H1 H2
    intro c hc0 hcn hstc
    rw [heapDownLoop]
    by_cases hexit : ((n : Int) ≤ 2 * (hole : Int) + 1)
    · rw [if_pos (Or.inl hexit)]
      exact downExit_noChild σ h hole st n (by omega) H1 c hc0 hcn hstc
    · have hguard : ¬ ((n : Int) ≤ 2 * (hole : Int) + 1 ∨ 2 * (hole : Int) + 1 < 0) := by
        omega
      rw [if_neg hguard]
      dsimp only
      have hholen : hole < n := by omega
      have hj1n : 2 * hole + 1 < n := by omega
      split
      · rename_i hjsel
        -- the right child exists and is strictly smaller: j = 2*hole+2
        have hj2cast : (2 * (hole : Int) + 1 + 1) = ((2 * hole + 2 : Nat) : Int) := by
          push_cast
          ring
        have hj2n : 2 * hole + 2 < n := by
          have := hjsel.1
          omega
        have hless22 := (minHeapLess_true_iff σ h _ _).mp hjsel.2
        rw [(by omega : (2 * (hole : Int) + 1 + 1).toNat = 2 * hole + 2),
            (by omega : (2 * (hole : Int) + 1).toNat = 2 * hole + 1)] at hless22
        have hminj : ∀ c2, (c2 = 2 * hole + 1 ∨ c2 = 2 * hole + 2) → c2 < n →
            fval σ h (2 * hole + 2) ≤ fval σ h c2 := by
          intro c2 hck _hcn2
          rcases hck with h1 | h2
          · rw [h1]
            exact le_of_lt hless22.2.2
          · rw [h2]
        split
        · rename_i hless
          have hlessf := (minHeapLess_true_iff σ h _ _).mp hless
          rw [(by omega : (2 * (hole : Int) + 1 + 1).toNat = 2 * hole + 2),
              (by omega : ((hole : Int)).toNat = hole)] at hlessf
          rw [hj2cast]
          exact downSwapStep σ h hole st n (2 * hole + 2) k
            (fun σ2 h2 hole2 => ih σ2 h2 hole2 st n)
            hn hst (by omega) (by omega) (Or.inr rfl) hj2n hminj hlessf.2.2 H1 H2
            c hc0 hcn hstc
        · rename_i hless
          have hlessf : ¬ (fval σ h (2 * hole + 2) < fval σ h hole) := by
            intro hcon
            apply hless
            rw [minHeapLess_true_iff]
            rw [(by omega : (2 * (hole : Int) + 1 + 1).toNat = 2 * hole + 2),
                (by omega : ((hole : Int)).toNat = hole)]
            exact ⟨by omega, by omega, hcon⟩
          exact downExit_fits σ h hole st n (2 * hole + 2) hminj
            (le_of_not_lt (fun hcon => hlessf hcon)) H1 c hc0 hcn hstc
      · rename_i hjsel
        -- j = 2*hole+1
        have hj1cast : (2 * (hole : Int) + 1) = ((2 * hole + 1 : Nat) : Int) := by
          push_cast
          ring
        have hminj : ∀ c2, (c2 = 2 * hole + 1 ∨ c2 = 2 * hole + 2) → c2 < n →
            fval σ h (2 * hole + 1) ≤ fval σ h c2 := by
          intro c2 hck hcn2
          rcases hck with h1 | h2
          · rw [h1]
          · have hB : ¬ (minHeapLess σ h (2 * (hole : Int) + 1 + 1)
                (2 * (hole : Int) + 1) = true) := by
              intro hB
              exact hjsel ⟨by omega, hB⟩
            have hnotlt : ¬ (fval σ h (2 * hole + 2) < fval σ h (2 * hole + 1)) := by
              intro hcon
              apply hB
              rw [minHeapLess_true_iff]
              rw [(by omega : (2 * (hole : Int) + 1 + 1).toNat = 2 * hole + 2),
                  (by omega : (2 * (hole : Int) + 1).toNat = 2 * hole + 1)]
              exact ⟨by omega, by omega, hcon⟩
            rw [h2]
            exact le_of_not_lt hnotlt
        split
        · rename_i hless
          have hlessf := (minHeapLess_true_iff σ h _ _).mp hless
          rw [(by omega : (2 * (hole : Int) + 1).toNat = 2 * hole + 1),
              (by omega : ((hole : Int)).toNat = hole)] at hlessf
          rw [hj1cast]
          exact downSwapStep σ h hole st n (2 * hole + 1) k
            (fun σ2 h2 hole2 => ih σ2 h2 hole2 st n)
            hn hst (by omega) (by omega) (Or.inl rfl) hj1n hminj hlessf.2.2 H1 H2
            c hc0 hcn hstc
        · rename_i hless
          have hlessf : ¬ (fval σ h (2 * hole + 1) < fval σ h hole) := by
            intro hcon
            apply hless
            rw [minHeapLess_true_iff]
            rw [(by omega : (2 * (hole : Int) + 1).toNat = 2 * hole + 1),
                (by omega : ((hole : Int)).toNat = hole)]
            exact ⟨by omega, by omega, hcon⟩
          exact downExit_fits σ h hole st n (2 * hole + 1) hminj
            (le_of_not_lt (fun hcon => hlessf hcon)) H1 c hc0 hcn hstc

theorem heapDown_heapFrom (σ : Store) (h : List Nat) (hole st n : Nat)
    (hn : n ≤ h.length) (hst : st ≤ hole)
    (H1 : ∀ c, 0 < c → c < n → st ≤ par c → par c ≠ hole →
      fval σ h (par c) ≤ fval σ h c)
    (H2 : st < hole → ∀ c, c < n → par c = hole →
      fval σ h (par hole) ≤ fval σ h c) :
    ∀ c, 0 < c → c < n → st ≤ par c →
      fval σ (heapDown σ h (hole : Int) (n : Int)).2.1 (par c)
        ≤ fval σ (heapDown σ h (hole : Int) (n : Int)).2.1 c :=
  heapDownLoop_heapFrom (h.length + 1) σ h hole st n hn hst (by omega) H1 H2

theorem heapInitLoop_presKF : ∀ (fuel : Nat) (σ : Store) (h : List Nat) (i n : Int),
    PresKF σ (heapInitLoop σ h i n fuel).1 := by
  intro fuel
  induction fuel with
  | zero => intro σ h i n; exact PresKF.rfl σ
  | succ k ih =>
    intro σ h i n
    rw [heapInitLoop]
    split
    · exact PresKF.rfl σ
    · exact (heapDown_presKF σ h i n).trans (ih _ _ _ _)

theorem heapInitLoop_perm : ∀ (fuel : Nat) (σ : Store) (h : List Nat) (i n : Int),
    (heapInitLoop σ h i n fuel).2.Perm h := by
  intro fuel
  induction fuel with
  | zero => intro σ h i n; exact List.Perm.refl h
  | succ k ih =>
    intro σ h i n
    rw [heapInitLoop]
    split
    · exact List.Perm.refl h
    · exact (ih _ _ _ _).trans (heapDown_perm σ h i n)

theorem heapInitLoop_heapFrom :
    ∀ (fuel : Nat) (σ : Store) (h : List Nat) (i : Int) (n : Nat),
      n = h.length → i < (fuel : Int) →
      (∀ c, 0 < c → c < n → i < ((par c : Nat) : Int) →
        fval σ h (par c) ≤ fval σ h c) →
      ∀ c, 0 < c → c < n →
        fval σ (heapInitLoop σ h i (n : Int) fuel).2 (par c)
          ≤ fval σ (heapInitLoop σ h i (n : Int) fuel).2 c := by
  intro fuel
  induction fuel with
  | zero =>
    intro σ h i n _hn hfuel hpre c hc0 hcn
    exact hpre c hc0 hcn (by omega)
  | succ k ih =>
    intro σ h i n hn hfuel hpre c hc0 hcn
    rw [heapInitLoop]
    by_cases hi : i < 0
    · rw [if_pos hi]
      exact hpre c hc0 hcn (by omega)
    · rw [if_neg hi]
      dsimp only
      have hicast : i = ((i.toNat : Nat) : Int) := by omega
      have hdownpres : PresKF σ (heapDown σ h i (n : Int)).1 := heapDown_presKF σ h i _
      have hdlen : (heapDown σ h i (n : Int)).2.1.length = h.length :=
        (heapDown_perm σ h i _).length_eq
      have hdown : ∀ c2, 0 < c2 → c2 < n → i.toNat ≤ par c2 →
          fval σ (heapDown σ h i (n : Int)).2.1 (par c2)
            ≤ fval σ (heapDown σ h i (n : Int)).2.1 c2 := by
        rw [hicast]
        exact heapDown_heapFrom σ h i.toNat i.toNat n (by omega) (le_refl _)
          (fun c2 hc20 hc2n hst hne => hpre c2 hc20 hc2n (by omega))
          (fun hcon => absurd hcon (lt_irrefl _))
      have hfv : ∀ (l : List Nat) (q : Nat),
          fval (heapDown σ h i (n : Int)).1 l q = fval σ l q :=
        fun l q => fval_eq_of_presKF σ _ l q hdownpres
      have hpost := ih (heapDown σ h i (n : Int)).1 (heapDown σ h i (n : Int)).2.1
        (i - 1) n (by omega) (by omega)
        (fun c2 hc20 hc2n hlt => by
          rw [hfv, hfv]
          exact hdown c2 hc20 hc2n (by omega))
        c hc0 hcn
      rwa [hfv, hfv] at hpost

theorem heapInit_presKF (σ : Store) (h : List Nat) : PresKF σ (heapInit σ h).1 :=
  heapInitLoop_presKF _ σ h _ _

theorem heapInit_perm (σ : Store) (h : List Nat) : (heapInit σ h).2.Perm h :=
  heapInitLoop_perm _ σ h _ _

theorem heapInit_heapFrom (σ : Store) (h : List Nat) :
    ∀ c, 0 < c → c < h.length →
      fval σ (heapInit σ h).2 (par c) ≤ fval σ (heapInit σ h).2 c := by
  have htd : (h.length : Int).tdiv 2 = ((h.length / 2 : Nat) : Int) := rfl
  unfold heapInit
  apply heapInitLoop_heapFrom (h.length + 1) σ h ((h.length : Int).tdiv 2 - 1) h.length rfl
  · rw [htd]
    omega
  · intro c hc0 hcn hpar
    exfalso
    rw [htd] at hpar
    have := child_of_par c hc0
    omega

/-- In a heap-ordered prefix the root's frequency is the least. -/
theorem heapFrom_root_le (σ : Store) (h : List Nat) (n : Nat)
    (hheap : ∀ c, 0 < c → c < n → fval σ h (par c) ≤ fval σ h c) :
    ∀ q, q < n → fval σ h 0 ≤ fval σ h q := by
  intro q
  induction q using Nat.strong_induction_on with
  | _ q ih =>
    intro hq
    rcases Nat.eq_zero_or_pos q with h0 | hp
    · rw [h0]
    · have hpar := par_lt q hp
      exact le_trans (ih (par q) hpar (by omega)) (hheap q hp hq)

theorem fval_dropLast (σ : Store) (l : List Nat) (q : Nat) (hq : q < l.length - 1) :
    fval σ l.dropLast q = fval σ l q := by
  unfold fval
  rw [List.getD_eq_getElem?_getD, List.getD_eq_getElem?_getD, List.getElem?_dropLast,
    if_pos hq]

/-- heap.Pop on a heap-ordered slice returns the root and leaves a
heap-ordered slice of the remaining records. -/
theorem heapPop_heapFrom (σ : Store) (h : List Nat) (hne : h ≠ [])
    (hheap : ∀ c, 0 < c → c < h.length → fval σ h (par c) ≤ fval σ h c) :
    ∃ σ2 h2, heapPop σ h = some (σ2, h2, h.getD 0 0) ∧ PresKF σ σ2 ∧
      (h.getD 0 0 :: h2).Perm h ∧ h2.length = h.length - 1 ∧
      (∀ c, 0 < c → c < h2.length → fval σ h2 (par c) ≤ fval σ h2 c) := by
  obtain ⟨σ2, h2, hpop, hpres, hperm, hlen2⟩ := heapPop_spec σ h hne
  refine ⟨σ2, h2, hpop, hpres, hperm, hlen2, ?_⟩
  have hlen : 0 < h.length := List.length_pos.mpr hne
  have hpop2 := hpop
  unfold heapPop minHeapPop at hpop2
  dsimp only at hpop2
  rcases hlast : (heapDown (minHeapSwap σ h 0 ((h.length : Int) - 1)).1
      (minHeapSwap σ h 0 ((h.length : Int) - 1)).2 0
      ((h.length : Int) - 1)).2.1.getLast? with _ | id
  · rw [hlast] at hpop2
    exact absurd hpop2 (by simp)
  · rw [hlast] at hpop2
    simp only [Option.some.injEq, Prod.mk.injEq] at hpop2
    obtain ⟨-, hh2, -⟩ := hpop2
    rw [← hh2]
    have hswlen : (minHeapSwap σ h 0 ((h.length : Int) - 1)).2.length = h.length :=
      minHeapSwap_length σ h 0 _
    have hdlen : (heapDown (minHeapSwap σ h 0 ((h.length : Int) - 1)).1
        (minHeapSwap σ h 0 ((h.length : Int) - 1)).2 0
        ((h.length : Int) - 1)).2.1.length = h.length :=
      (heapDown_perm _ _ _ _).length_eq.trans hswlen
    have hcastn : ((h.length : Int) - 1) = ((h.length - 1 : Nat) : Int) := by omega
    have hcast0 : (0 : Int) = ((0 : Nat) : Int) := rfl
    have hswval : ∀ q : Nat, q ≠ 0 → q ≠ h.length - 1 →
        fval σ (minHeapSwap σ h 0 ((h.length : Int) - 1)).2 q = fval σ h q := by
      intro q hq0 hqn
      rw [fval_swap σ σ h 0 ((h.length : Int) - 1) q (le_refl 0) (by omega) (by omega)
        (by omega)]
      rw [if_neg (by omega), if_neg (by omega)]
    have hQ := heapDown_heapFrom (minHeapSwap σ h 0 ((h.length : Int) - 1)).1
      (minHeapSwap σ h 0 ((h.length : Int) - 1)).2 0 0 (h.length - 1)
      (by omega) (le_refl 0)
      (fun c hc0 hcn hst hne0 => by
        have hplt := par_lt c hc0
        have hfv : ∀ (l : List Nat) (q : Nat),
            fval (minHeapSwap σ h 0 ((h.length : Int) - 1)).1 l q = fval σ l q :=
          fun l q => fval_eq_of_presKF σ _ l q (minHeapSwap_presKF σ h 0 _)
        rw [hfv, hfv, hswval (par c) hne0 (by omega), hswval c (by omega) (by omega)]
        exact hheap c hc0 (by omega))
      (fun hcon => absurd hcon (lt_irrefl 0))
    rw [← hcast0, ← hcastn] at hQ
    intro c hc0 hcn
    have hplt := par_lt c hc0
    have hfv2 : ∀ (l : List Nat) (q : Nat),
        fval (minHeapSwap σ h 0 ((h.length : Int) - 1)).1 l q = fval σ l q :=
      fun l q => fval_eq_of_presKF σ _ l q (minHeapSwap_presKF σ h 0 _)
    have hcd : c < h.length - 1 := by
      rw [List.length_dropLast, hdlen] at hcn
      exact hcn
    rw [fval_dropLast σ _ (par c) (by rw [hdlen]; omega),
        fval_dropLast σ _ c (by rw [hdlen]; omega)]
    have := hQ c hc0 hcd (by omega)
    rwa [hfv2, hfv2] at this

/-- The pop loop of shard.GetHotspots succeeds on a heap-ordered slice
and yields the records sorted by ascending frequency; the popped records
carry exactly the keys and frequencies of the slice. -/
theorem extractLoop_spec : ∀ (k : Nat) (σ : Store) (h : List Nat), h.length = k →
    (∀ c, 0 < c → c < h.length → fval σ h (par c) ≤ fval σ h c) →
    ∃ σ2 out, extractLoop σ h k = some (σ2, out) ∧ PresKF σ σ2 ∧
      (out.map (fun c => (c.key, c.freq))).Perm
        (h.map (fun id => ((cell σ id).key, (cell σ id).freq))) ∧
      List.Chain' (fun a b => a.freq ≤ b.freq) out := by
  intro k
  induction k with
  | zero =>
    intro σ h hlen _hheap
    have : h = [] := List.length_eq_zero.mp hlen
    subst this
    exact ⟨σ, [], rfl, PresKF.rfl σ, by simp, List.chain'_nil⟩
  | succ k ih =>
    intro σ h hlen hheap
    have hne : h ≠ [] := by
      intro hc
      rw [hc] at hlen
      simp at hlen
    obtain ⟨σp, hp, hpop, hpres, hperm, hplen, hpheap⟩ := heapPop_heapFrom σ h hne hheap
    have hplen' : hp.length = k := by omega
    have hfvp : ∀ (l : List Nat) (q : Nat), fval σp l q = fval σ l q :=
      fun l q => fval_eq_of_presKF σ σp l q hpres
    obtain ⟨σ2, out, hext, hpres2, hperm2, hchain2⟩ := ih σp hp hplen'
      (fun c hc0 hcn => by
        rw [hfvp, hfvp]
        exact hpheap c hc0 hcn)
    refine ⟨σ2, cell σp (h.getD 0 0) :: out, ?_, hpres.trans hpres2, ?_, ?_⟩
    · rw [extractLoop, hpop]
      dsimp only
      rw [hext]
    · have hfun : (fun id => ((cell σp id).key, (cell σp id).freq))
          = (fun id => ((cell σ id).key, (cell σ id).freq)) :=
        funext (fun id => by rw [(hpres.2 id).1, (hpres.2 id).2])
      rw [hfun] at hperm2
      have hpairr : ((cell σp (h.getD 0 0)).key, (cell σp (h.getD 0 0)).freq)
          = ((cell σ (h.getD 0 0)).key, (cell σ (h.getD 0 0)).freq) := by
        rw [(hpres.2 _).1, (hpres.2 _).2]
      simp only [List.map_cons]
      rw [hpairr]
      exact (List.Perm.cons _ hperm2).trans
        (hperm.map (fun id => ((cell σ id).key, (cell σ id).freq)))
    · rw [List.chain'_cons']
      refine ⟨?_, hchain2⟩
      intro y hy
      have hymem : y ∈ out := List.mem_of_mem_head? hy
      have hpair : (y.key, y.freq)
          ∈ hp.map (fun id => ((cell σp id).key, (cell σp id).freq)) :=
        (hperm2.mem_iff).mp (List.mem_map_of_mem _ hymem)
      obtain ⟨id, hidmem, hideq⟩ := List.mem_map.mp hpair
      have hyfreq : y.freq = (cell σ id).freq := by
        have hsnd := congrArg Prod.snd hideq
        simp only at hsnd
        rw [← hsnd, (hpres.2 id).2]
      have hidh : id ∈ h := (hperm.mem_iff).mp (List.mem_cons_of_mem _ hidmem)
      obtain ⟨q, hqlt, hqeq⟩ := List.mem_iff_getElem.mp hidh
      have hfq : fval σ h q = (cell σ id).freq := by
        unfold fval
        rw [List.getD_eq_getElem?_getD, List.getElem?_eq_getElem hqlt]
        simp [hqeq]
      have hroot := heapFrom_root_le σ h h.length hheap q hqlt
      have hrfreq : (cell σp (h.getD 0 0)).freq = fval σ h 0 := (hpres.2 _).2
      rw [hrfreq, hyfreq, ← hfq]
      exact hroot

/-- shard.GetHotspots (record view) always succeeds, touches only Index
fields, returns the tracked records sorted by ascending frequency, and
carries exactly the heap's keys and frequencies. -/
theorem shardGetHotspotsKF_spec (σ : Store) (s : Shard) :
    ∃ σ2 kfs, shardGetHotspotsKF σ s = some (σ2, kfs) ∧ PresKF σ σ2 ∧
      (kfs.map (fun c => (c.key, c.freq))).Perm
        (s.minHeap.map (fun id => ((cell σ id).key, (cell σ id).freq))) ∧
      List.Chain' (fun a b => a.freq ≤ b.freq) kfs := by
  have hinitpres := heapInit_presKF σ s.minHeap
  have hinitperm := heapInit_perm σ s.minHeap
  have hinitlen : (heapInit σ s.minHeap).2.length = s.minHeap.length := hinitperm.length_eq
  have hheap := heapInit_heapFrom σ s.minHeap
  obtain ⟨σ2, out, hext, hpres2, hperm2, hchain2⟩ :=
    extractLoop_spec (heapInit σ s.minHeap).2.length (heapInit σ s.minHeap).1
      (heapInit σ s.minHeap).2 rfl
      (fun c hc0 hcn => by
        rw [fval_eq_of_presKF σ _ _ _ hinitpres, fval_eq_of_presKF σ _ _ _ hinitpres]
        exact hheap c hc0 (by rw [← hinitlen]; exact hcn))
  refine ⟨σ2, out, ?_, hinitpres.trans hpres2, ?_, hchain2⟩
  · unfold shardGetHotspotsKF
    dsimp only
    exact hext
  · have hfun : (fun id => ((cell (heapInit σ s.minHeap).1 id).key,
        (cell (heapInit σ s.minHeap).1 id).freq))
        = (fun id => ((cell σ id).key, (cell σ id).freq)) :=
      funext (fun id => by rw [(hinitpres.2 id).1, (hinitpres.2 id).2])
    rw [hfun] at hperm2
    exact hperm2.trans (hinitperm.map _)

/-! ## Aggregate size bound -/

theorem processKeyFreq_bound (σ : Store) (t : Shard) (id : Nat) (σ2 : Store) (t2 : Shard)
    (hp : processKeyFreq σ t id = some (σ2, t2))
    (hb : (t.minHeap.length : Int) ≤ max 0 t.topN) :
    t2.topN = t.topN ∧ (t2.minHeap.length : Int) ≤ max 0 t.topN := by
  unfold processKeyFreq at hp
  by_cases hlt : ((t.minHeap.length : Int) < t.topN)
  · rw [if_pos hlt] at hp
    dsimp only at hp
    simp only [Option.some.injEq, Prod.mk.injEq] at hp
    obtain ⟨-, ht2⟩ := hp
    rw [← ht2]
    refine ⟨rfl, ?_⟩
    rw [heapPush_length]
    push_cast
    omega
  · rw [if_neg hlt] at hp
    rcases hh : t.minHeap.head? with _ | root
    · rw [hh] at hp
      exact absurd hp (by simp)
    · rw [hh] at hp
      dsimp only at hp
      split at hp
      · have hne : t.minHeap ≠ [] := by
          intro hc
          rw [hc] at hh
          simp at hh
        have hpos : 0 < t.minHeap.length := List.length_pos.mpr hne
        obtain ⟨σp, hpp, hpop, -, -, hplen⟩ := heapPop_spec σ t.minHeap hne
        rw [hpop] at hp
        dsimp only at hp
        simp only [Option.some.injEq, Prod.mk.injEq] at hp
        obtain ⟨-, ht2⟩ := hp
        rw [← ht2]
        refine ⟨rfl, ?_⟩
        rw [heapPush_length, hplen]
        push_cast
        omega
      · simp only [Option.some.injEq, Prod.mk.injEq] at hp
        obtain ⟨-, ht2⟩ := hp
        rw [← ht2]
        exact ⟨rfl, hb⟩

theorem aggShardLoop_bound : ∀ (ids : List Nat) (σ : Store) (t : Shard) (σ2 : Store)
    (t2 : Shard), aggShardLoop σ t ids = some (σ2, t2) →
    (t.minHeap.length : Int) ≤ max 0 t.topN →
    t2.topN = t.topN ∧ (t2.minHeap.length : Int) ≤ max 0 t.topN := by
  intro ids
  induction ids with
  | nil =>
    intro σ t σ2 t2 hp hb
    unfold aggShardLoop at hp
    simp only [Option.some.injEq, Prod.mk.injEq] at hp
    rw [← hp.2]
    exact ⟨rfl, hb⟩
  | cons id rest ih =>
    intro σ t σ2 t2 hp hb
    unfold aggShardLoop at hp
    rcases hstep : processKeyFreq σ t id with _ | p
    · rw [hstep] at hp
      exact absurd hp (by simp)
    · rw [hstep] at hp
      dsimp only at hp
      obtain ⟨htn, hbnd⟩ := processKeyFreq_bound σ t id p.1 p.2 (by rw [hstep]) hb
      have := ih p.1 p.2 σ2 t2 hp (by rw [htn]; exact hbnd)
      rw [htn] at this
      exact this

theorem aggLoop_bound : ∀ (ss : List Shard) (σ : Store) (t : Shard) (σ2 : Store)
    (t2 : Shard), aggLoop σ t ss = some (σ2, t2) →
    (t.minHeap.length : Int) ≤ max 0 t.topN →
    t2.topN = t.topN ∧ (t2.minHeap.length : Int) ≤ max 0 t.topN := by
  intro ss
  induction ss with
  | nil =>
    intro σ t σ2 t2 hp hb
    unfold aggLoop at hp
    simp only [Option.some.injEq, Prod.mk.injEq] at hp
    rw [← hp.2]
    exact ⟨rfl, hb⟩
  | cons s rest ih =>
    intro σ t σ2 t2 hp hb
    unfold aggLoop at hp
    rcases hstep : aggShardLoop σ t s.minHeap with _ | p
    · rw [hstep] at hp
      exact absurd hp (by simp)
    · rw [hstep] at hp
      dsimp only at hp
      obtain ⟨htn, hbnd⟩ := aggShardLoop_bound s.minHeap σ t p.1 p.2 hstep hb
      have := ih p.1 p.2 σ2 t2 hp (by rw [htn]; exact hbnd)
      rw [htn] at this
      exact this

theorem aggregateShards_bound (σ : Store) (ht : HotspotTracker) (σ2 : Store) (t2 : Shard)
    (hp : aggregateShards σ ht = some (σ2, t2)) :
    t2.topN = ht.topN ∧ (t2.minHeap.length : Int) ≤ max 0 ht.topN := by
  exact aggLoop_bound ht.shards σ (newShard ht.topN) σ2 t2 hp (by simp [newShard])

/-! ## Inversion lemmas for the tracker operations -/

theorem aggregateData_inv (σ : Store) (ht : HotspotTracker) (σ1 : Store) (aggr : Shard)
    (ht1 : HotspotTracker) (h : aggregateData σ ht = some (σ1, aggr, ht1)) :
    ht1 = ht ∧ ht.withCache = false ∧ aggregateShards σ ht = some (σ1, aggr) := by
  unfold aggregateData at h
  by_cases hw : ht.withCache = true
  · rw [if_pos hw] at h
    exact absurd h (by simp)
  · rw [if_neg hw] at h
    rcases ha : aggregateShards σ ht with _ | p
    · rw [ha] at h
      exact absurd h (by simp)
    · rw [ha] at h
      dsimp only at h
      simp only [Option.some.injEq, Prod.mk.injEq] at h
      refine ⟨h.2.2.symm, by simpa using hw, ?_⟩
      rw [← h.1, ← h.2.1]

theorem getHotspotsKF_inv (σ : Store) (ht : HotspotTracker) (σ2 : Store)
    (ht2 : HotspotTracker) (kfs : List KeyFreq)
    (h : getHotspotsKF σ ht = some (σ2, ht2, kfs)) :
    ht2 = ht ∧ ht.withCache = false ∧
    ∃ σ1 aggr, aggregateShards σ ht = some (σ1, aggr) ∧
      shardGetHotspotsKF σ1 aggr = some (σ2, kfs) := by
  unfold getHotspotsKF at h
  rcases ha : aggregateData σ ht with _ | r
  · rw [ha] at h
    exact absurd h (by simp)
  · rw [ha] at h
    dsimp only at h
    rcases hs : shardGetHotspotsKF r.1 r.2.1 with _ | p
    · rw [hs] at h
      exact absurd h (by simp)
    · rw [hs] at h
      dsimp only at h
      simp only [Option.some.injEq, Prod.mk.injEq] at h
      obtain ⟨hσ, hht, hkfs⟩ := h
      obtain ⟨h1, h2, h3⟩ := aggregateData_inv σ ht r.1 r.2.1 r.2.2 (by rw [ha])
      refine ⟨hht ▸ h1, h2, r.1, r.2.1, h3, ?_⟩
      rw [← hσ, ← hkfs]
      exact hs

theorem getHotspots_inv (σ : Store) (ht : HotspotTracker) (σ2 : Store)
    (ht2 : HotspotTracker) (res : List String)
    (h : getHotspots σ ht = some (σ2, ht2, res)) :
    ∃ kfs, getHotspotsKF σ ht = some (σ2, ht2, kfs) ∧ res = kfs.map (fun c => c.key) := by
  unfold getHotspots at h
  rcases hk : getHotspotsKF σ ht with _ | r
  · rw [hk] at h
    exact absurd h (by simp)
  · rw [hk] at h
    dsimp only at h
    simp only [Option.some.injEq, Prod.mk.injEq] at h
    exact ⟨r.2.2, by rw [← h.1, ← h.2.1], h.2.2.symm⟩

theorem isHotspot_inv (σ : Store) (ht : HotspotTracker) (key : String) (σ2 : Store)
    (ht2 : HotspotTracker) (b : Bool)
    (h : isHotspot σ ht key = some (σ2, ht2, b)) :
    ht2 = ht ∧ ht.withCache = false ∧
    ∃ aggr, aggregateShards σ ht = some (σ2, aggr) ∧ b = shardIsHotspot aggr key := by
  unfold isHotspot at h
  rcases ha : aggregateData σ ht with _ | r
  · rw [ha] at h
    exact absurd h (by simp)
  · rw [ha] at h
    dsimp only at h
    simp only [Option.some.injEq, Prod.mk.injEq] at h
    obtain ⟨hσ, hht, hb⟩ := h
    obtain ⟨h1, h2, h3⟩ := aggregateData_inv σ ht r.1 r.2.1 r.2.2 (by rw [ha])
    exact ⟨hht ▸ h1, h2, r.2.1, by rw [h3, hσ], hb.symm⟩

theorem recordRequest_inv (σ : Store) (ht : HotspotTracker) (key : String) (σ2 : Store)
    (ht2 : HotspotTracker) (h : recordRequest σ ht key = some (σ2, ht2)) :
    ∃ idx s s2, shardIndex ht key = some idx ∧ ht.shards.get? idx.toNat = some s ∧
      shardRecordRequest σ s key = some (σ2, s2) ∧
      ht2 = { ht with shards := ht.shards.set idx.toNat s2 } := by
  unfold recordRequest at h
  rcases hsi : shardIndex ht key with _ | idx
  · rw [hsi] at h
    exact absurd h (by simp)
  · rw [hsi] at h
    dsimp only at h
    rcases hg : ht.shards.get? idx.toNat with _ | s
    · rw [hg] at h
      exact absurd h (by simp)
    · rw [hg] at h
      dsimp only at h
      rcases hr : shardRecordRequest σ s key with _ | p
      · rw [hr] at h
        exact absurd h (by simp)
      · rw [hr] at h
        dsimp only at h
        simp only [Option.some.injEq, Prod.mk.injEq] at h
        refine ⟨idx, s, p.2, ?_, ?_, ?_, by rw [← h.2]⟩
        · rfl
        · first
          | rfl
          | exact hg
        · rw [← h.1]
          exact hr

theorem applyOp_frame (σ : Store) (ht : HotspotTracker) (op : Op) (σ2 : Store)
    (ht2 : HotspotTracker) (h : applyOp σ ht op = some (σ2, ht2)) :
    ht2.topN = ht.topN ∧ ht2.numShards = ht.numShards ∧ ht2.withCache = ht.withCache ∧
    ht2.shards.length = ht.shards.length := by
  cases op with
  | record k =>
    obtain ⟨idx, s, s2, -, -, -, hht2⟩ := recordRequest_inv σ ht k σ2 ht2 h
    rw [hht2]
    exact ⟨rfl, rfl, rfl, List.length_set _ _ _⟩
  | readHotspots =>
    simp only [applyOp] at h
    rcases hg : getHotspots σ ht with _ | r
    · rw [hg] at h
      exact absurd h (by simp)
    · rw [hg] at h
      dsimp only at h
      simp only [Option.some.injEq, Prod.mk.injEq] at h
      obtain ⟨kfs, hkf, -⟩ := getHotspots_inv σ ht r.1 r.2.1 r.2.2 (by rw [hg])
      obtain ⟨h1, -, -⟩ := getHotspotsKF_inv σ ht r.1 r.2.1 kfs hkf
      rw [← h.2, h1]
      exact ⟨rfl, rfl, rfl, rfl⟩
  | readIsHotspot k =>
    simp only [applyOp] at h
    rcases hg : isHotspot σ ht k with _ | r
    · rw [hg] at h
      exact absurd h (by simp)
    · rw [hg] at h
      dsimp only at h
      simp only [Option.some.injEq, Prod.mk.injEq] at h
      obtain ⟨h1, -, -⟩ := isHotspot_inv σ ht k r.1 r.2.1 r.2.2 (by rw [hg])
      rw [← h.2, h1]
      exact ⟨rfl, rfl, rfl, rfl⟩

theorem runOps_frame : ∀ (ops : List Op) (σ : Store) (ht : HotspotTracker) (σ2 : Store)
    (ht2 : HotspotTracker), runOps σ ht ops = some (σ2, ht2) →
    ht2.topN = ht.topN ∧ ht2.numShards = ht.numShards ∧ ht2.withCache = ht.withCache ∧
    ht2.shards.length = ht.shards.length := by
  intro ops
  induction ops with
  | nil =>
    intro σ ht σ2 ht2 h
    unfold runOps at h
    simp only [Option.some.injEq, Prod.mk.injEq] at h
    rw [← h.2]
    exact ⟨rfl, rfl, rfl, rfl⟩
  | cons op rest ih =>
    intro σ ht σ2 ht2 h
    unfold runOps at h
    rcases ha : applyOp σ ht op with _ | p
    · rw [ha] at h
      exact absurd h (by simp)
    · rw [ha] at h
      dsimp only at h
      obtain ⟨e1, e2, e3, e4⟩ := applyOp_frame σ ht op p.1 p.2 ha
      obtain ⟨f1, f2, f3, f4⟩ := ih p.1 p.2 σ2 ht2 h
      exact ⟨f1.trans e1, f2.trans e2, f3.trans e3, f4.trans e4⟩

theorem getHotspots_of_KF (σ : Store) (ht : HotspotTracker) (σ2 : Store)
    (ht2 : HotspotTracker) (kfs : List KeyFreq)
    (h : getHotspotsKF σ ht = some (σ2, ht2, kfs)) :
    getHotspots σ ht = some (σ2, ht2, kfs.map (fun c => c.key)) := by
  unfold getHotspots
  rw [h]

/-! ## C5 -/

/-- C5: on every tracker state reachable by public operations from a
validly constructed tracker, GetHotspots returns at most topN keys, and
the popped records behind them come out in non-decreasing frequency
order. -/
theorem C5_hotspots_bounded_sorted (tn sc : Int) (ops : List Op) (t0 : HotspotTracker)
    (σ : Store) (t : HotspotTracker) (σ2 : Store) (t2 : HotspotTracker) (kfs : List KeyFreq)
    (htn : 1 ≤ tn) (hsc : 1 ≤ sc)
    (hc : newHotspotTracker tn sc = some t0)
    (hrun : runOps [] t0 ops = some (σ, t))
    (hread : getHotspotsKF σ t = some (σ2, t2, kfs)) :
    getHotspots σ t = some (σ2, t2, kfs.map (fun c => c.key)) ∧
    (kfs.length : Int) ≤ tn ∧
    List.Chain' (fun a b => a.freq ≤ b.freq) kfs := by
  obtain ⟨-, -, σ1, aggr, hagg, hsg⟩ := getHotspotsKF_inv σ t σ2 t2 kfs hread
  obtain ⟨σ2b, kfsb, hsgb, -, hperm, hchain⟩ := shardGetHotspotsKF_spec σ1 aggr
  rw [hsg] at hsgb
  simp only [Option.some.injEq, Prod.mk.injEq] at hsgb
  obtain ⟨-, hkfs⟩ := hsgb
  subst hkfs
  refine ⟨getHotspots_of_KF σ t σ2 t2 kfs hread, ?_, hchain⟩
  have hlen : kfs.length = aggr.minHeap.length := by
    have := hperm.length_eq
    simpa using this
  obtain ⟨htop, hbound⟩ := aggregateShards_bound σ t σ1 aggr hagg
  have ht0 : t0.topN = tn := by
    unfold newHotspotTracker at hc
    rw [if_neg (by omega)] at hc
    simp only [Option.some.injEq] at hc
    rw [← hc]
  have httn : t.topN = tn := by
    rw [(runOps_frame ops [] t0 σ t hrun).1, ht0]
  rw [hlen]
  rw [httn] at hbound
  omega

/-- Witness for C5 on the one-record tracker. -/
theorem C5_hotspots_witness :
    getHotspots [{ key := "a", freq := 1, index := 0 }]
        { shards := [⟨2, [0], [("a", 0)]⟩], numShards := 1, topN := 2, cache := none,
          update := false, stopClosed := false, withCache := false }
      = some ([{ key := "a", freq := 1, index := -1 }],
              { shards := [⟨2, [0], [("a", 0)]⟩], numShards := 1, topN := 2, cache := none,
                update := false, stopClosed := false, withCache := false },
              ([{ key := "a", freq := 1, index := -1 }] : List KeyFreq).map
                (fun c => c.key)) ∧
    ((([{ key := "a", freq := 1, index := -1 }] : List KeyFreq).length : Int) ≤ 2) ∧
    List.Chain' (fun a b => a.freq ≤ b.freq)
      [({ key := "a", freq := 1, index := -1 } : KeyFreq)] :=
  C5_hotspots_bounded_sorted 2 1 [Op.record "a"]
    { shards := [⟨2, [], []⟩], numShards := 1, topN := 2, cache := none,
      update := false, stopClosed := false, withCache := false }
    [{ key := "a", freq := 1, index := 0 }]
    { shards := [⟨2, [0], [("a", 0)]⟩], numShards := 1, topN := 2, cache := none,
      update := false, stopClosed := false, withCache := false }
    [{ key := "a", freq := 1, index := -1 }]
    { shards := [⟨2, [0], [("a", 0)]⟩], numShards := 1, topN := 2, cache := none,
      update := false, stopClosed := false, withCache := false }
    [{ key := "a", freq := 1, index := -1 }]
    (by decide) (by decide) (by decide) (by decide) (by decide)

/-! ## Store effects of aggregation are Index-only -/

theorem processKeyFreq_presKF (σ : Store) (t : Shard) (id : Nat) (σ2 : Store) (t2 : Shard)
    (hp : processKeyFreq σ t id = some (σ2, t2)) : PresKF σ σ2 := by
  unfold processKeyFreq at hp
  by_cases hlt : ((t.minHeap.length : Int) < t.topN)
  · rw [if_pos hlt] at hp
    dsimp only at hp
    simp only [Option.some.injEq, Prod.mk.injEq] at hp
    rw [← hp.1]
    exact heapPush_presKF σ t.minHeap id
  · rw [if_neg hlt] at hp
    rcases hh : t.minHeap.head? with _ | root
    · rw [hh] at hp
      exact absurd hp (by simp)
    · rw [hh] at hp
      dsimp only at hp
      split at hp
      · have hne : t.minHeap ≠ [] := by
          intro hc
          rw [hc] at hh
          simp at hh
        obtain ⟨σp, hpp, hpop, hpres, -, -⟩ := heapPop_spec σ t.minHeap hne
        rw [hpop] at hp
        dsimp only at hp
        simp only [Option.some.injEq, Prod.mk.injEq] at hp
        rw [← hp.1]
        exact hpres.trans (heapPush_presKF σp hpp id)
      · simp only [Option.some.injEq, Prod.mk.injEq] at hp
        rw [← hp.1]
        exact PresKF.rfl σ

theorem aggShardLoop_presKF : ∀ (ids : List Nat) (σ : Store) (t : Shard) (σ2 : Store)
    (t2 : Shard), aggShardLoop σ t ids = some (σ2, t2) → PresKF σ σ2 := by
  intro ids
  induction ids with
  | nil =>
    intro σ t σ2 t2 hp
    unfold aggShardLoop at hp
    simp only [Option.some.injEq, Prod.mk.injEq] at hp
    rw [← hp.1]
    exact PresKF.rfl σ
  | cons id rest ih =>
    intro σ t σ2 t2 hp
    unfold aggShardLoop at hp
    rcases hstep : processKeyFreq σ t id with _ | p
    · rw [hstep] at hp
      exact absurd hp (by simp)
    · rw [hstep] at hp
      dsimp only at hp
      exact (processKeyFreq_presKF σ t id p.1 p.2 hstep).trans (ih p.1 p.2 σ2 t2 hp)

theorem aggLoop_presKF : ∀ (ss : List Shard) (σ : Store) (t : Shard) (σ2 : Store)
    (t2 : Shard), aggLoop σ t ss = some (σ2, t2) → PresKF σ σ2 := by
  intro ss
  induction ss with
  | nil =>
    intro σ t σ2 t2 hp
    unfold aggLoop at hp
    simp only [Option.some.injEq, Prod.mk.injEq] at hp
    rw [← hp.1]
    exact PresKF.rfl σ
  | cons s rest ih =>
    intro σ t σ2 t2 hp
    unfold aggLoop at hp
    rcases hstep : aggShardLoop σ t s.minHeap with _ | p
    · rw [hstep] at hp
      exact absurd hp (by simp)
    · rw [hstep] at hp
      dsimp only at hp
      exact (aggShardLoop_presKF s.minHeap σ t p.1 p.2 hstep).trans (ih p.1 p.2 σ2 t2 hp)

theorem aggregateShards_presKF (σ : Store) (ht : HotspotTracker) (σ2 : Store) (t2 : Shard)
    (hp : aggregateShards σ ht = some (σ2, t2)) : PresKF σ σ2 :=
  aggLoop_presKF ht.shards σ (newShard ht.topN) σ2 t2 hp

/-! ## Shard / lookup-table synchronisation invariant -/

/-- The heap and the lookup table of a shard hold the same records: the
heap's pointer multiset is exactly the table's, table keys are unique,
and each table entry points at an in-range record carrying its key. -/
def SyncInv (σ : Store) (s : Shard) : Prop :=
  s.minHeap.Perm (s.keyFreqs.map (fun p => p.2)) ∧
  (s.keyFreqs.map (fun p => p.1)).Nodup ∧
  ∀ p ∈ s.keyFreqs, (cell σ p.2).key = p.1 ∧ p.2 < σ.length

theorem SyncInv_presKF (σ σ2 : Store) (s : Shard) (hpres : PresKF σ σ2)
    (hinv : SyncInv σ s) : SyncInv σ2 s := by
  refine ⟨hinv.1, hinv.2.1, ?_⟩
  intro p hp
  obtain ⟨hk, hb⟩ := hinv.2.2 p hp
  exact ⟨(hpres.2 p.2).1.trans hk, by rw [hpres.1]; exact hb⟩

theorem kfLookup_isSome_iff (kfs : List (String × Nat)) (k : String) :
    (kfLookup kfs k).isSome = true ↔ k ∈ kfs.map (fun p => p.1) := by
  unfold kfLookup
  rcases hf : kfs.find? (fun p => decide (p.1 = k)) with _ | p
  · rw [hf]
    dsimp only
    constructor
    · intro h
      exact absurd h (by simp)
    · intro hmem
      obtain ⟨q, hq, hqk⟩ := List.mem_map.mp hmem
      have := List.find?_eq_none.mp hf q hq
      simp [hqk] at this
  · rw [hf]
    dsimp only
    constructor
    · intro _
      have hmem := List.find?_some hf
      have hpm := List.mem_of_find?_eq_some hf
      simp only [decide_eq_true_eq] at hmem
      exact List.mem_map.mpr ⟨p, hpm, hmem⟩
    · intro _
      simp

/-- Removing the key of a known table entry removes exactly that entry
from the pointer list, when table keys are unique. -/
theorem kfErase_ids_perm : ∀ (kfs : List (String × Nat)) (rk : String) (rid : Nat),
    (kfs.map (fun p => p.1)).Nodup → (rk, rid) ∈ kfs →
    (kfs.map (fun p => p.2)).Perm (rid :: (kfErase kfs rk).map (fun p => p.2)) := by
  intro kfs
  induction kfs with
  | nil =>
    intro rk rid _ hmem
    exact absurd hmem (List.not_mem_nil _)
  | cons p rest ih =>
    intro rk rid hnodup hmem
    have hhd : rk ∉ rest.map (fun r => r.1) → kfErase rest rk = rest := by
      intro hnm
      apply kfErase_eq_of_notmem
      intro q hq hqk
      exact hnm (by rw [← hqk]; exact List.mem_map_of_mem (fun r => r.1) hq)
    rcases List.mem_cons.mp hmem with hhead | htail
    · subst hhead
      have hrest : kfErase rest rk = rest :=
        hhd (by simpa using (List.nodup_cons.mp hnodup).1)
      have hall : kfErase ((rk, rid) :: rest) rk = rest := by
        unfold kfErase
        rw [List.filter_cons, if_neg (by simp)]
        rw [show rest.filter (fun q => decide (q.1 ≠ rk)) = kfErase rest rk from rfl, hrest]
      rw [hall]
      exact List.Perm.refl _
    · have hne : p.1 ≠ rk := by
        intro hc
        have hnotin : p.1 ∉ rest.map (fun r => r.1) := (List.nodup_cons.mp hnodup).1
        have hrkmem : rk ∈ rest.map (fun r => r.1) :=
          List.mem_map_of_mem (fun r => r.1) htail
        exact hnotin (hc.symm ▸ hrkmem)
      have hih := ih rk rid (List.nodup_cons.mp hnodup).2 htail
      have hall : kfErase (p :: rest) rk = p :: kfErase rest rk := by
        unfold kfErase
        rw [List.filter_cons, if_pos (by simp [hne])]
      rw [hall]
      simp only [List.map_cons]
      exact (List.Perm.cons p.2 hih).trans (List.Perm.swap rid p.2 _)

/-- processKeyFreq keeps the aggregate shard's heap and lookup table in
sync when the incoming record's key is not yet in the table. -/
theorem processKeyFreq_SyncInv (σ : Store) (t : Shard) (id : Nat) (σ2 : Store) (t2 : Shard)
    (hp : processKeyFreq σ t id = some (σ2, t2))
    (hid : id < σ.length)
    (hkey : (cell σ id).key ∉ t.keyFreqs.map (fun p => p.1))
    (hinv : SyncInv σ t) :
    SyncInv σ2 t2 ∧
    (∀ p ∈ t2.keyFreqs, p.1 = (cell σ id).key ∨ p.1 ∈ t.keyFreqs.map (fun q => q.1)) := by
  have herase : ∀ (l : List (String × Nat)), (∀ p ∈ l, p ∈ t.keyFreqs) →
      kfErase l (cell σ id).key = l := by
    intro l hsub
    apply kfErase_eq_of_notmem
    intro p hpl hpk
    exact hkey (by rw [← hpk]; exact List.mem_map_of_mem (fun q => q.1) (hsub p hpl))
  unfold processKeyFreq at hp
  by_cases hlt : ((t.minHeap.length : Int) < t.topN)
  · rw [if_pos hlt] at hp
    dsimp only at hp
    simp only [Option.some.injEq, Prod.mk.injEq] at hp
    set P := heapPush σ t.minHeap id with hPdef
    have hpres : PresKF σ P.1 := heapPush_presKF σ t.minHeap id
    have hkeyeq : (cell P.1 id).key = (cell σ id).key := (hpres.2 id).1
    have hkfs : kfInsert t.keyFreqs (cell P.1 id).key id
        = ((cell σ id).key, id) :: t.keyFreqs := by
      unfold kfInsert
      rw [hkeyeq, herase t.keyFreqs (fun p hp => hp)]
    rw [← hp.1, ← hp.2]
    refine ⟨⟨?_, ?_, ?_⟩, ?_⟩
    · show P.2.Perm ((kfInsert t.keyFreqs (cell P.1 id).key id).map (fun p => p.2))
      rw [hkfs]
      simp only [List.map_cons]
      exact (heapPush_perm σ t.minHeap id).trans (List.Perm.cons id hinv.1)
    · show ((kfInsert t.keyFreqs (cell P.1 id).key id).map (fun p => p.1)).Nodup
      rw [hkfs]
      simp only [List.map_cons]
      exact List.nodup_cons.mpr ⟨hkey, hinv.2.1⟩
    · show ∀ p ∈ kfInsert t.keyFreqs (cell P.1 id).key id,
        (cell P.1 p.2).key = p.1 ∧ p.2 < P.1.length
      rw [hkfs]
      intro p hpmem
      rcases List.mem_cons.mp hpmem with hhd | htl
      · subst hhd
        exact ⟨hkeyeq, by rw [hpres.1]; exact hid⟩
      · obtain ⟨hk, hb⟩ := hinv.2.2 p htl
        exact ⟨(hpres.2 p.2).1.trans hk, by rw [hpres.1]; exact hb⟩
    · show ∀ p ∈ kfInsert t.keyFreqs (cell P.1 id).key id, _
      rw [hkfs]
      intro p hpmem
      rcases List.mem_cons.mp hpmem with hhd | htl
      · exact Or.inl (by rw [hhd])
      · exact Or.inr (List.mem_map_of_mem (fun q => q.1) htl)
  · rw [if_neg hlt] at hp
    rcases hh : t.minHeap.head? with _ | root
    · rw [hh] at hp
      exact absurd hp (by simp)
    · rw [hh] at hp
      dsimp only at hp
      have hcons : t.minHeap = root :: t.minHeap.tail := by
        cases hM : t.minHeap with
        | nil => rw [hM] at hh; exact absurd hh (by simp)
        | cons a l =>
          rw [hM] at hh
          simp only [List.head?_cons, Option.some.injEq] at hh
          rw [hh]
          rfl
      by_cases hfreq : ((cell σ root).freq ≤ (cell σ id).freq)
      · rw [if_pos hfreq] at hp
        have hne : t.minHeap ≠ [] := by rw [hcons]; simp
        obtain ⟨σp, hpp, hpop, hpres1, hperm1, _⟩ := heapPop_spec σ t.minHeap hne
        have hgd : t.minHeap.getD 0 0 = root := by rw [hcons]; simp
        rw [hpop] at hp
        dsimp only at hp
        simp only [Option.some.injEq, Prod.mk.injEq] at hp
        have hrkeq : (cell σp (t.minHeap.getD 0 0)).key = (cell σ root).key := by
          rw [hgd]
          exact (hpres1.2 root).1
        have hrootmem : root ∈ t.minHeap := by rw [hcons]; exact List.mem_cons_self _ _
        have hentry : ((cell σ root).key, root) ∈ t.keyFreqs := by
          have hmm : root ∈ t.keyFreqs.map (fun p => p.2) := hinv.1.mem_iff.mp hrootmem
          obtain ⟨q, hq, hq2⟩ := List.mem_map.mp hmm
          have hqk := (hinv.2.2 q hq).1
          have hq2' : q.2 = root := hq2
          rw [← hq2', hqk]
          exact hq
        set rk := (cell σ root).key with hrkdef
        have hperm_er : (t.keyFreqs.map (fun p => p.2)).Perm
            (root :: (kfErase t.keyFreqs rk).map (fun p => p.2)) :=
          kfErase_ids_perm t.keyFreqs rk root hinv.2.1 hentry
        rw [hgd] at hperm1
        have hpp_perm : hpp.Perm ((kfErase t.keyFreqs rk).map (fun p => p.2)) :=
          List.Perm.cons_inv ((hperm1.trans hinv.1).trans hperm_er)
        set P := heapPush σp hpp id with hPdef
        have hpres2 : PresKF σp P.1 := heapPush_presKF σp hpp id
        have hpres : PresKF σ P.1 := hpres1.trans hpres2
        have hkeyeq : (cell P.1 id).key = (cell σ id).key := (hpres.2 id).1
        have hsub1 : ∀ p ∈ kfErase t.keyFreqs rk, p ∈ t.keyFreqs :=
          kfErase_mem_sub t.keyFreqs rk
        have hkfs : kfInsert (kfErase t.keyFreqs rk) (cell P.1 id).key id
            = ((cell σ id).key, id) :: kfErase t.keyFreqs rk := by
          unfold kfInsert
          rw [hkeyeq, herase _ hsub1]
        have hsub_keys : ((kfErase t.keyFreqs rk).map (fun p => p.1)).Sublist
            (t.keyFreqs.map (fun p => p.1)) :=
          (List.filter_sublist _).map _
        rw [← hp.1, ← hp.2]
        refine ⟨⟨?_, ?_, ?_⟩, ?_⟩
        · show P.2.Perm ((kfInsert (kfErase t.keyFreqs
            (cell σp (t.minHeap.getD 0 0)).key) (cell P.1 id).key id).map (fun p => p.2))
          rw [hrkeq, hkfs]
          simp only [List.map_cons]
          exact (heapPush_perm σp hpp id).trans (List.Perm.cons id hpp_perm)
        · show ((kfInsert (kfErase t.keyFreqs
            (cell σp (t.minHeap.getD 0 0)).key) (cell P.1 id).key id).map (fun p => p.1)).Nodup
          rw [hrkeq, hkfs]
          simp only [List.map_cons]
          refine List.nodup_cons.mpr ⟨?_, List.Nodup.sublist hsub_keys hinv.2.1⟩
          intro hmem
          exact hkey (hsub_keys.subset hmem)
        · show ∀ p ∈ kfInsert (kfErase t.keyFreqs
            (cell σp (t.minHeap.getD 0 0)).key) (cell P.1 id).key id,
            (cell P.1 p.2).key = p.1 ∧ p.2 < P.1.length
          rw [hrkeq, hkfs]
          intro p hpmem
          rcases List.mem_cons.mp hpmem with hhd | htl
          · subst hhd
            exact ⟨hkeyeq, by rw [hpres.1]; exact hid⟩
          · obtain ⟨hk, hb⟩ := hinv.2.2 p (hsub1 p htl)
            exact ⟨(hpres.2 p.2).1.trans hk, by rw [hpres.1]; exact hb⟩
        · show ∀ p ∈ kfInsert (kfErase t.keyFreqs
            (cell σp (t.minHeap.getD 0 0)).key) (cell P.1 id).key id, _
          rw [hrkeq, hkfs]
          intro p hpmem
          rcases List.mem_cons.mp hpmem with hhd | htl
          · exact Or.inl (by rw [hhd])
          · exact Or.inr (List.mem_map_of_mem (fun q => q.1) (hsub1 p htl))
      · rw [if_neg hfreq] at hp
        simp only [Option.some.injEq, Prod.mk.injEq] at hp
        rw [← hp.1, ← hp.2]
        exact ⟨hinv, fun p hpm => Or.inr (List.mem_map_of_mem (fun q => q.1) hpm)⟩

theorem map_congr_mem : ∀ {α β : Type} (l : List α) (f g : α → β),
    (∀ a ∈ l, f a = g a) → l.map f = l.map g := by
  intro α β l f g h
  induction l with
  | nil => rfl
  | cons a rest ih =>
    simp only [List.map_cons]
    rw [h a (List.mem_cons_self a rest), ih (fun b hb => h b (List.mem_cons_of_mem a hb))]

theorem heapId_bound (σ : Store) (s : Shard) (hinv : SyncInv σ s) (id : Nat)
    (hid : id ∈ s.minHeap) : id < σ.length := by
  have hmm : id ∈ s.keyFreqs.map (fun p => p.2) := hinv.1.mem_iff.mp hid
  obtain ⟨q, hq, hq2⟩ := List.mem_map.mp hmm
  have hq2' : q.2 = id := hq2
  rw [← hq2']
  exact (hinv.2.2 q hq).2

theorem heapKey_mem_keys (σ : Store) (s : Shard) (hinv : SyncInv σ s) (id : Nat)
    (hid : id ∈ s.minHeap) : (cell σ id).key ∈ s.keyFreqs.map (fun p => p.1) := by
  have hmm : id ∈ s.keyFreqs.map (fun p => p.2) := hinv.1.mem_iff.mp hid
  obtain ⟨q, hq, hq2⟩ := List.mem_map.mp hmm
  have hq2' : q.2 = id := hq2
  rw [← hq2', (hinv.2.2 q hq).1]
  exact List.mem_map_of_mem (fun p => p.1) hq

theorem heapKeys_perm (σ : Store) (s : Shard) (hinv : SyncInv σ s) :
    (s.minHeap.map (fun id => (cell σ id).key)).Perm (s.keyFreqs.map (fun p => p.1)) := by
  have h1 := hinv.1.map (fun id => (cell σ id).key)
  rw [List.map_map] at h1
  have h2 : s.keyFreqs.map ((fun id => (cell σ id).key) ∘ (fun p => p.2))
      = s.keyFreqs.map (fun p => p.1) :=
    map_congr_mem _ _ _ (fun q hq => (hinv.2.2 q hq).1)
  rw [h2] at h1
  exact h1

/-- The aggregation inner loop keeps the aggregate in sync when the
incoming records are in range, have pairwise distinct keys, and their
keys are fresh for the aggregate. -/
theorem aggShardLoop_SyncInv : ∀ (ids : List Nat) (σ : Store) (t : Shard) (σ2 : Store)
    (t2 : Shard), aggShardLoop σ t ids = some (σ2, t2) →
    (∀ id ∈ ids, id < σ.length) →
    (ids.map (fun id => (cell σ id).key)).Nodup →
    (∀ id ∈ ids, (cell σ id).key ∉ t.keyFreqs.map (fun p => p.1)) →
    SyncInv σ t →
    SyncInv σ2 t2 ∧
    (∀ p ∈ t2.keyFreqs, p.1 ∈ ids.map (fun id => (cell σ id).key) ∨
      p.1 ∈ t.keyFreqs.map (fun q => q.1)) := by
  intro ids
  induction ids with
  | nil =>
    intro σ t σ2 t2 hp _ _ _ hinv
    unfold aggShardLoop at hp
    simp only [Option.some.injEq, Prod.mk.injEq] at hp
    rw [← hp.1, ← hp.2]
    exact ⟨hinv, fun p hpm => Or.inr (List.mem_map_of_mem (fun q => q.1) hpm)⟩
  | cons id rest ih =>
    intro σ t σ2 t2 hp hidv hnodup hdisj hinv
    unfold aggShardLoop at hp
    rcases hstep : processKeyFreq σ t id with _ | q
    · rw [hstep] at hp
      exact absurd hp (by simp)
    · rw [hstep] at hp
      dsimp only at hp
      have hpres : PresKF σ q.1 := processKeyFreq_presKF σ t id q.1 q.2 hstep
      obtain ⟨hinv1, hsubkeys⟩ := processKeyFreq_SyncInv σ t id q.1 q.2 hstep
        (hidv id (List.mem_cons_self id rest))
        (hdisj id (List.mem_cons_self id rest)) hinv
      have hmapeq : (fun j => (cell q.1 j).key) = (fun j => (cell σ j).key) :=
        funext (fun j => (hpres.2 j).1)
      have hnd := List.nodup_cons.mp (by simpa only [List.map_cons] using hnodup)
      obtain ⟨hres, hsubset⟩ := ih q.1 q.2 σ2 t2 hp
        (fun j hj => by rw [hpres.1]; exact hidv j (List.mem_cons_of_mem id hj))
        (by rw [hmapeq]; exact hnd.2)
        (by
          intro j hj hc
          obtain ⟨r, hr, hr1⟩ := List.mem_map.mp hc
          have hr1' : r.1 = (cell q.1 j).key := hr1
          have hjk : (cell q.1 j).key = (cell σ j).key := (hpres.2 j).1
          rcases hsubkeys r hr with hkid | htk
          · have heq : (cell σ j).key = (cell σ id).key := by rw [← hjk, ← hr1', hkid]
            have hm : (cell σ j).key ∈ rest.map (fun i => (cell σ i).key) :=
              List.mem_map_of_mem (fun i => (cell σ i).key) hj
            rw [heq] at hm
            exact hnd.1 hm
          · rw [hr1', hjk] at htk
            exact hdisj j (List.mem_cons_of_mem id hj) htk)
        hinv1
      refine ⟨hres, ?_⟩
      intro p hpm
      rcases hsubset p hpm with hrest | htnew
      · rw [hmapeq] at hrest
        exact Or.inl (by
          simp only [List.map_cons]
          exact List.mem_cons_of_mem _ hrest)
      · obtain ⟨r, hr, hr1⟩ := List.mem_map.mp htnew
        have hr1' : r.1 = p.1 := hr1
        rcases hsubkeys r hr with hkid | htk
        · exact Or.inl (by
            simp only [List.map_cons]
            rw [← hr1', hkid]
            exact List.mem_cons_self _ _)
        · exact Or.inr (by rw [← hr1']; exact htk)

/-- The aggregation outer loop keeps the aggregate in sync when every
source shard is in sync, keys are disjoint across the source shards, and
the aggregate's keys are disjoint from all source shards. -/
theorem aggLoop_SyncInv : ∀ (ss : List Shard) (σ : Store) (t : Shard) (σ2 : Store)
    (t2 : Shard), aggLoop σ t ss = some (σ2, t2) →
    (∀ s ∈ ss, SyncInv σ s) →
    List.Pairwise (fun s1 s2 => ∀ k ∈ s1.keyFreqs.map (fun p => p.1),
      k ∉ s2.keyFreqs.map (fun p => p.1)) ss →
    (∀ s ∈ ss, ∀ k ∈ t.keyFreqs.map (fun p => p.1),
      k ∉ s.keyFreqs.map (fun p => p.1)) →
    SyncInv σ t →
    SyncInv σ2 t2 ∧
    (∀ p ∈ t2.keyFreqs, p.1 ∈ t.keyFreqs.map (fun q => q.1) ∨
      ∃ s ∈ ss, p.1 ∈ s.keyFreqs.map (fun q => q.1)) := by
  intro ss
  induction ss with
  | nil =>
    intro σ t σ2 t2 hp _ _ _ hinv
    unfold aggLoop at hp
    simp only [Option.some.injEq, Prod.mk.injEq] at hp
    rw [← hp.1, ← hp.2]
    exact ⟨hinv, fun p hpm => Or.inl (List.mem_map_of_mem (fun q => q.1) hpm)⟩
  | cons s rest ih =>
    intro σ t σ2 t2 hp hss hpw htdisj hinv
    unfold aggLoop at hp
    rcases hstep : aggShardLoop σ t s.minHeap with _ | q
    · rw [hstep] at hp
      exact absurd hp (by simp)
    · rw [hstep] at hp
      dsimp only at hp
      have hsinv : SyncInv σ s := hss s (List.mem_cons_self s rest)
      have hpres : PresKF σ q.1 := aggShardLoop_presKF s.minHeap σ t q.1 q.2 hstep
      obtain ⟨hinv1, hsub1⟩ := aggShardLoop_SyncInv s.minHeap σ t q.1 q.2 hstep
        (fun id hid => heapId_bound σ s hsinv id hid)
        ((heapKeys_perm σ s hsinv).nodup_iff.mpr hsinv.2.1)
        (fun id hid hc => htdisj s (List.mem_cons_self s rest) _ hc
          (heapKey_mem_keys σ s hsinv id hid))
        hinv
      have hpwc := List.pairwise_cons.mp hpw
      have hsub1' : ∀ p ∈ q.2.keyFreqs, p.1 ∈ s.keyFreqs.map (fun r => r.1) ∨
          p.1 ∈ t.keyFreqs.map (fun r => r.1) := by
        intro p hpm
        rcases hsub1 p hpm with hheap | htk
        · obtain ⟨id, hid, hidk⟩ := List.mem_map.mp hheap
          have hidk' : (cell σ id).key = p.1 := hidk
          exact Or.inl (hidk' ▸ heapKey_mem_keys σ s hsinv id hid)
        · exact Or.inr htk
      obtain ⟨hres, hsubset⟩ := ih q.1 q.2 σ2 t2 hp
        (fun s' hs' => SyncInv_presKF σ q.1 s' hpres (hss s' (List.mem_cons_of_mem s hs')))
        hpwc.2
        (by
          intro s' hs' k hk hc
          obtain ⟨r, hr, hr1⟩ := List.mem_map.mp hk
          have hr1' : r.1 = k := hr1
          rcases hsub1' r hr with hks | hkt
          · exact hpwc.1 s' hs' r.1 hks (by rw [hr1']; exact hc)
          · exact htdisj s' (List.mem_cons_of_mem s hs') r.1 hkt
              (by rw [hr1']; exact hc))
        hinv1
      refine ⟨hres, ?_⟩
      intro p hpm
      rcases hsubset p hpm with htq | ⟨s', hs', hmem⟩
      · obtain ⟨r, hr, hr1⟩ := List.mem_map.mp htq
        have hr1' : r.1 = p.1 := hr1
        rcases hsub1' r hr with hks | hkt
        · exact Or.inr ⟨s, List.mem_cons_self s rest, by rw [← hr1']; exact hks⟩
        · exact Or.inl (by rw [← hr1']; exact hkt)
      · exact Or.inr ⟨s', List.mem_cons_of_mem s hs', hmem⟩

theorem kfLookup_some_mem (kfs : List (String × Nat)) (k : String) (id : Nat)
    (hs : kfLookup kfs k = some id) : (k, id) ∈ kfs := by
  unfold kfLookup at hs
  rcases hf : kfs.find? (fun p => decide (p.1 = k)) with _ | p
  · rw [hf] at hs
    exact absurd hs (by simp)
  · rw [hf] at hs
    dsimp only at hs
    simp only [Option.some.injEq] at hs
    have hmem := List.find?_some hf
    have hpm := List.mem_of_find?_eq_some hf
    simp only [decide_eq_true_eq] at hmem
    have hpk : p = (k, id) := by
      rw [← hmem, ← hs]
    rw [← hpk]
    exact hpm

/-- A shard keeps its heap/table synchronisation when the store only
grows and keeps the keys of its old records. -/
theorem SyncInv_mono (σ σ2 : Store) (s : Shard) (hlen : σ.length ≤ σ2.length)
    (hkeys : ∀ j, j < σ.length → (cell σ2 j).key = (cell σ j).key)
    (hinv : SyncInv σ s) : SyncInv σ2 s := by
  refine ⟨hinv.1, hinv.2.1, ?_⟩
  intro p hpm
  obtain ⟨hk, hb⟩ := hinv.2.2 p hpm
  exact ⟨(hkeys p.2 hb).trans hk, lt_of_lt_of_le hb hlen⟩

/-- shard.RecordRequest keeps the heap/table synchronisation, only grows
the store, keeps the keys of old records, and adds at most the recorded
key to the table's key set. -/
theorem shardRecordRequest_SyncInv (σ : Store) (s : Shard) (key : String) (σ2 : Store)
    (s2 : Shard) (h : shardRecordRequest σ s key = some (σ2, s2)) (hinv : SyncInv σ s) :
    SyncInv σ2 s2 ∧ σ.length ≤ σ2.length ∧
    (∀ j, j < σ.length → (cell σ2 j).key = (cell σ j).key) ∧
    (∀ p ∈ s2.keyFreqs, p.1 = key ∨ p.1 ∈ s.keyFreqs.map (fun q => q.1)) := by
  unfold shardRecordRequest at h
  rcases htr : kfLookup s.keyFreqs key with _ | id
  · rw [htr] at h
    dsimp only at h
    set σ1 := σ ++ [{ key := key, freq := 1, index := 0 }] with hσ1
    have hlen1 : σ1.length = σ.length + 1 := by rw [hσ1]; simp
    have hid : σ.length < σ1.length := by omega
    have hnewkey : (cell σ1 σ.length).key = key := by
      rw [hσ1, cell_append_self]
    have hnotin : key ∉ s.keyFreqs.map (fun p => p.1) := by
      intro hc
      obtain ⟨q, hq, hq1⟩ := List.mem_map.mp hc
      exact kfLookup_none_mem s.keyFreqs key htr q hq hq1
    have hinv1 : SyncInv σ1 s :=
      SyncInv_mono σ σ1 s (le_of_lt hid)
        (fun j hj => by rw [hσ1, cell_append_lt σ _ j hj]) hinv
    have hpres2 : PresKF σ1 σ2 := processKeyFreq_presKF σ1 s σ.length σ2 s2 h
    obtain ⟨hres, hsub⟩ := processKeyFreq_SyncInv σ1 s σ.length σ2 s2 h hid
      (by rw [hnewkey]; exact hnotin) hinv1
    refine ⟨hres, ?_, ?_, ?_⟩
    · rw [hpres2.1]
      omega
    · intro j hj
      rw [(hpres2.2 j).1, hσ1, cell_append_lt σ _ j hj]
    · intro p hpm
      rcases hsub p hpm with h1 | h2
      · exact Or.inl (by rw [h1, hnewkey])
      · exact Or.inr h2
  · rw [htr] at h
    dsimp only at h
    simp only [Option.some.injEq, Prod.mk.injEq] at h
    have hidb : id < σ.length := by
      have hmem := kfLookup_some_mem s.keyFreqs key id htr
      exact (hinv.2.2 (key, id) hmem).2
    set σ1 := setCell σ id { cell σ id with freq := (cell σ id).freq + 1 } with hσ1
    have hlen1 : σ1.length = σ.length := by rw [hσ1]; exact length_setCell σ id _
    have hkeys1 : ∀ j, (cell σ1 j).key = (cell σ j).key := by
      intro j
      by_cases hj : id = j
      · subst hj
        rw [hσ1, cell_setCell_self σ id _ hidb]
      · rw [hσ1, cell_setCell_ne σ id j _ hj]
    have hpres2 : PresKF σ1 (heapFix σ1 s.minHeap (cell σ1 id).index).1 :=
      heapFix_presKF σ1 s.minHeap (cell σ1 id).index
    have hperm2 := heapFix_perm σ1 s.minHeap (cell σ1 id).index
    rw [← h.1, ← h.2]
    refine ⟨⟨?_, hinv.2.1, ?_⟩, ?_, ?_, ?_⟩
    · exact hperm2.trans hinv.1
    · intro p hpm
      obtain ⟨hk, hb⟩ := hinv.2.2 p hpm
      refine ⟨((hpres2.2 p.2).1.trans (hkeys1 p.2)).trans hk, ?_⟩
      rw [hpres2.1, hlen1]
      exact hb
    · rw [hpres2.1, hlen1]
    · intro j _
      rw [(hpres2.2 j).1, hkeys1 j]
    · intro p hpm
      exact Or.inr (List.mem_map_of_mem (fun q => q.1) hpm)

/-- The shard a key is routed to (src/main.go:124-129). -/
def routeOf (key : String) (nsh : Int) : Int :=
  (Int.ofNat (fnv32a (strBytes key))).tmod nsh

/-- Reachability invariant of a tracker built without caching: every
shard is in sync with the store and holds only keys routed to it. -/
def TrackerInv (σ : Store) (ht : HotspotTracker) : Prop :=
  ht.withCache = false ∧
  (ht.shards.length : Int) = ht.numShards ∧
  0 < ht.numShards ∧
  ∀ i, (hi : i < ht.shards.length) →
    SyncInv σ (ht.shards.get ⟨i, hi⟩) ∧
    ∀ p ∈ (ht.shards.get ⟨i, hi⟩).keyFreqs, routeOf p.1 ht.numShards = (i : Int)

theorem newHotspotTracker_TrackerInv (tn sc : Int) (t0 : HotspotTracker)
    (hsc : 1 ≤ sc) (hc : newHotspotTracker tn sc = some t0) :
    TrackerInv [] t0 := by
  unfold newHotspotTracker at hc
  rw [if_neg (by omega)] at hc
  simp only [Option.some.injEq] at hc
  rw [← hc]
  refine ⟨rfl, ?_, ?_, ?_⟩
  · show (((List.replicate sc.toNat (newShard tn)).length : Int)) = sc
    rw [List.length_replicate]
    omega
  · show (0 : Int) < sc
    omega
  · show ∀ i, (hi : i < (List.replicate sc.toNat (newShard tn)).length) →
      SyncInv [] ((List.replicate sc.toNat (newShard tn)).get ⟨i, hi⟩) ∧
      ∀ p ∈ ((List.replicate sc.toNat (newShard tn)).get ⟨i, hi⟩).keyFreqs,
        routeOf p.1 sc = (i : Int)
    intro i hi
    rw [List.get_replicate]
    exact ⟨⟨List.Perm.refl _, List.nodup_nil, fun p hp => absurd hp (List.not_mem_nil p)⟩,
      fun p hp => absurd hp (List.not_mem_nil p)⟩

theorem TrackerInv_presKF (σ σ2 : Store) (ht : HotspotTracker) (hpres : PresKF σ σ2)
    (hinv : TrackerInv σ ht) : TrackerInv σ2 ht := by
  refine ⟨hinv.1, hinv.2.1, hinv.2.2.1, ?_⟩
  intro i hi
  obtain ⟨hs, hr⟩ := hinv.2.2.2 i hi
  exact ⟨SyncInv_presKF σ σ2 _ hpres hs, hr⟩

theorem applyOp_TrackerInv (σ : Store) (ht : HotspotTracker) (op : Op) (σ2 : Store)
    (ht2 : HotspotTracker) (h : applyOp σ ht op = some (σ2, ht2))
    (hinv : TrackerInv σ ht) : TrackerInv σ2 ht2 := by
  cases op with
  | readHotspots =>
    simp only [applyOp] at h
    rcases hg : getHotspots σ ht with _ | r
    · rw [hg] at h
      exact absurd h (by simp)
    · rw [hg] at h
      dsimp only at h
      simp only [Option.some.injEq, Prod.mk.injEq] at h
      obtain ⟨kfs, hkf, -⟩ := getHotspots_inv σ ht r.1 r.2.1 r.2.2 (by rw [hg])
      obtain ⟨hht, -, σ1, aggr, hagg, hsg⟩ := getHotspotsKF_inv σ ht r.1 r.2.1 kfs hkf
      have hpres1 : PresKF σ σ1 := aggregateShards_presKF σ ht σ1 aggr hagg
      obtain ⟨σ2b, kfsb, hsgb, hpres2, -, -⟩ := shardGetHotspotsKF_spec σ1 aggr
      rw [hsg] at hsgb
      simp only [Option.some.injEq, Prod.mk.injEq] at hsgb
      have hpres : PresKF σ r.1 := hpres1.trans (hsgb.1 ▸ hpres2)
      rw [← h.1, ← h.2, hht]
      exact TrackerInv_presKF σ r.1 ht hpres hinv
  | readIsHotspot k =>
    simp only [applyOp] at h
    rcases hg : isHotspot σ ht k with _ | r
    · rw [hg] at h
      exact absurd h (by simp)
    · rw [hg] at h
      dsimp only at h
      simp only [Option.some.injEq, Prod.mk.injEq] at h
      obtain ⟨hht, -, aggr, hagg, -⟩ := isHotspot_inv σ ht k r.1 r.2.1 r.2.2 (by rw [hg])
      have hpres : PresKF σ r.1 := aggregateShards_presKF σ ht r.1 aggr hagg
      rw [← h.1, ← h.2, hht]
      exact TrackerInv_presKF σ r.1 ht hpres hinv
  | record k =>
    obtain ⟨idx, s, s2, hsi, hg, hsr, hht2⟩ := recordRequest_inv σ ht k σ2 ht2 h
    obtain ⟨hwc, hlensh, hpos, hsh⟩ := hinv
    have hnz : ht.numShards ≠ 0 := by omega
    unfold shardIndex at hsi
    rw [if_neg hnz] at hsi
    simp only [Option.some.injEq] at hsi
    have hidx0 : 0 ≤ idx := by
      rw [← hsi]
      exact Int.tmod_nonneg _ (Int.ofNat_nonneg _)
    have hidxlt : idx < ht.numShards := by
      rw [← hsi]
      exact Int.tmod_lt_of_pos _ hpos
    have hnlt : idx.toNat < ht.shards.length := by omega
    have hgets : ht.shards.get ⟨idx.toNat, hnlt⟩ = s := by
      have hq := List.get?_eq_get hnlt
      rw [hq] at hg
      simp only [Option.some.injEq] at hg
      exact hg
    obtain ⟨hs_inv, hs_route⟩ := hsh idx.toNat hnlt
    rw [hgets] at hs_inv hs_route
    obtain ⟨hinv2, hlen2, hkeys2, hsub2⟩ := shardRecordRequest_SyncInv σ s k σ2 s2 hsr hs_inv
    rw [hht2]
    refine ⟨hwc, ?_, hpos, ?_⟩
    · show (((ht.shards.set idx.toNat s2).length : Int)) = ht.numShards
      rw [List.length_set]
      exact hlensh
    · show ∀ i, (hi : i < (ht.shards.set idx.toNat s2).length) →
        SyncInv σ2 ((ht.shards.set idx.toNat s2).get ⟨i, hi⟩) ∧
        ∀ p ∈ ((ht.shards.set idx.toNat s2).get ⟨i, hi⟩).keyFreqs,
          routeOf p.1 ht.numShards = (i : Int)
      intro i hi
      have hi' : i < ht.shards.length := by
        rw [← List.length_set ht.shards idx.toNat s2]
        exact hi
      by_cases hcase : idx.toNat = i
      · subst hcase
        have hgeti : (ht.shards.set idx.toNat s2).get ⟨idx.toNat, hi⟩ = s2 := by
          rw [List.get_eq_getElem]
          exact List.getElem_set_self hi
        rw [hgeti]
        refine ⟨hinv2, ?_⟩
        intro p hpm
        rcases hsub2 p hpm with hk | hold
        · rw [hk]
          show routeOf k ht.numShards = ((idx.toNat : Nat) : Int)
          rw [Int.toNat_of_nonneg hidx0]
          exact hsi
        · obtain ⟨q, hq, hq1⟩ := List.mem_map.mp hold
          have hq1' : q.1 = p.1 := hq1
          rw [← hq1']
          exact hs_route q hq
      · have hgeti : (ht.shards.set idx.toNat s2).get ⟨i, hi⟩ = ht.shards.get ⟨i, hi'⟩ := by
          rw [List.get_eq_getElem, List.get_eq_getElem]
          exact List.getElem_set_ne hcase hi
        rw [hgeti]
        obtain ⟨hsi_inv, hsi_route⟩ := hsh i hi'
        exact ⟨SyncInv_mono σ σ2 _ hlen2 hkeys2 hsi_inv, hsi_route⟩

theorem runOps_TrackerInv : ∀ (ops : List Op) (σ : Store) (ht : HotspotTracker)
    (σ2 : Store) (ht2 : HotspotTracker), runOps σ ht ops = some (σ2, ht2) →
    TrackerInv σ ht → TrackerInv σ2 ht2 := by
  intro ops
  induction ops with
  | nil =>
    intro σ ht σ2 ht2 h hinv
    unfold runOps at h
    simp only [Option.some.injEq, Prod.mk.injEq] at h
    rw [← h.1, ← h.2]
    exact hinv
  | cons op rest ih =>
    intro σ ht σ2 ht2 h hinv
    unfold runOps at h
    rcases ha : applyOp σ ht op with _ | p
    · rw [ha] at h
      exact absurd h (by simp)
    · rw [ha] at h
      dsimp only at h
      exact ih p.1 p.2 σ2 ht2 h (applyOp_TrackerInv σ ht op p.1 p.2 ha hinv)

/-- On an invariant-satisfying tracker the transient aggregate shard is
itself in sync with the post-aggregation store. -/
theorem aggregateShards_SyncInv (σ : Store) (ht : HotspotTracker) (σ1 : Store)
    (aggr : Shard) (hagg : aggregateShards σ ht = some (σ1, aggr))
    (hinv : TrackerInv σ ht) : SyncInv σ1 aggr := by
  unfold aggregateShards at hagg
  have hss : ∀ s ∈ ht.shards, SyncInv σ s := by
    intro s hs
    obtain ⟨n, hn⟩ := List.mem_iff_get.mp hs
    rw [← hn]
    exact (hinv.2.2.2 n.1 n.2).1
  have hpw : List.Pairwise (fun s1 s2 => ∀ k ∈ s1.keyFreqs.map (fun p => p.1),
      k ∉ s2.keyFreqs.map (fun p => p.1)) ht.shards := by
    rw [List.pairwise_iff_get]
    intro i j hij k hk1 hk2
    obtain ⟨q1, hq1, hq1k⟩ := List.mem_map.mp hk1
    obtain ⟨q2, hq2, hq2k⟩ := List.mem_map.mp hk2
    have hr1 := (hinv.2.2.2 i.1 i.2).2 q1 hq1
    have hr2 := (hinv.2.2.2 j.1 j.2).2 q2 hq2
    have hq1k' : q1.1 = k := hq1k
    have hq2k' : q2.1 = k := hq2k
    rw [hq1k'] at hr1
    rw [hq2k'] at hr2
    rw [hr1] at hr2
    have : i.1 = j.1 := by exact_mod_cast hr2
    omega
  have hnew : SyncInv σ (newShard ht.topN) :=
    ⟨List.Perm.refl _, List.nodup_nil, fun p hp => absurd hp (List.not_mem_nil p)⟩
  exact (aggLoop_SyncInv ht.shards σ (newShard ht.topN) σ1 aggr hagg hss hpw
    (fun s _ k hk => absurd hk (List.not_mem_nil k)) hnew).1

/-! ## C6 -/

/-- C6: on every tracker state reachable by public operations from a
validly constructed tracker, and for every key, IsHotspot(key) returns
true exactly when the key is one of the strings returned by GetHotspots
run from the same state (no intervening writes); in particular every key
GetHotspots returns satisfies IsHotspot at that instant. -/
theorem C6_membership_agreement (tn sc : Int) (ops : List Op) (t0 : HotspotTracker)
    (σ : Store) (t : HotspotTracker) (key : String)
    (σ2 : Store) (t2 : HotspotTracker) (out : List String)
    (σ3 : Store) (t3 : HotspotTracker) (b : Bool)
    (hsc : 1 ≤ sc)
    (hc : newHotspotTracker tn sc = some t0)
    (hrun : runOps [] t0 ops = some (σ, t))
    (hget : getHotspots σ t = some (σ2, t2, out))
    (his : isHotspot σ t key = some (σ3, t3, b)) :
    (b = true ↔ key ∈ out) ∧
    (∀ k ∈ out, ∃ σ4 t4, isHotspot σ t k = some (σ4, t4, true)) := by
  have hinv : TrackerInv σ t :=
    runOps_TrackerInv ops [] t0 σ t hrun (newHotspotTracker_TrackerInv tn sc t0 hsc hc)
  obtain ⟨kfs, hkf, hout⟩ := getHotspots_inv σ t σ2 t2 out hget
  obtain ⟨-, -, σ1, aggr, hagg, hsg⟩ := getHotspotsKF_inv σ t σ2 t2 kfs hkf
  obtain ⟨-, -, aggr2, hagg2, hb⟩ := isHotspot_inv σ t key σ3 t3 b his
  rw [hagg] at hagg2
  simp only [Option.some.injEq, Prod.mk.injEq] at hagg2
  rw [← hagg2.2] at hb
  have haggInv : SyncInv σ1 aggr := aggregateShards_SyncInv σ t σ1 aggr hagg hinv
  obtain ⟨σ2b, kfsb, hsgb, -, hperm, -⟩ := shardGetHotspotsKF_spec σ1 aggr
  rw [hsg] at hsgb
  simp only [Option.some.injEq, Prod.mk.injEq] at hsgb
  rw [← hsgb.2] at hperm
  have hkeysperm : (kfs.map (fun c => c.key)).Perm
      (aggr.minHeap.map (fun id => (cell σ1 id).key)) := by
    have hm := hperm.map Prod.fst
    rw [List.map_map, List.map_map] at hm
    exact hm
  have hchain : ∀ k, k ∈ out ↔ k ∈ aggr.keyFreqs.map (fun p => p.1) := by
    intro k
    rw [hout, hkeysperm.mem_iff, (heapKeys_perm σ1 aggr haggInv).mem_iff]
  have hbval : b = true ↔ key ∈ aggr.keyFreqs.map (fun p => p.1) := by
    rw [hb]
    unfold shardIsHotspot
    exact kfLookup_isSome_iff aggr.keyFreqs key
  have hAD : aggregateData σ t = some (σ1, aggr, t) := by
    unfold aggregateData
    rw [if_neg (by rw [hinv.1]; simp), hagg]
  refine ⟨hbval.trans (hchain key).symm, ?_⟩
  intro k hk
  refine ⟨σ1, t, ?_⟩
  have hbk : shardIsHotspot aggr k = true := by
    unfold shardIsHotspot
    rw [kfLookup_isSome_iff]
    exact (hchain k).mp hk
  unfold isHotspot
  rw [hAD]
  dsimp only
  rw [hbk]

theorem C6_membership_witness :
    ((true = true) ↔ ("a" : String) ∈ (["a"] : List String)) ∧
    (∀ k ∈ (["a"] : List String), ∃ σ4 t4,
      isHotspot [{ key := "a", freq := 1, index := 0 }]
        { shards := [⟨2, [0], [("a", 0)]⟩], numShards := 1, topN := 2, cache := none,
          update := false, stopClosed := false, withCache := false } k
        = some (σ4, t4, true)) :=
  C6_membership_agreement 2 1 [Op.record "a"]
    { shards := [⟨2, [], []⟩], numShards := 1, topN := 2, cache := none,
      update := false, stopClosed := false, withCache := false }
    [{ key := "a", freq := 1, index := 0 }]
    { shards := [⟨2, [0], [("a", 0)]⟩], numShards := 1, topN := 2, cache := none,
      update := false, stopClosed := false, withCache := false }
    "a"
    [{ key := "a", freq := 1, index := -1 }]
    { shards := [⟨2, [0], [("a", 0)]⟩], numShards := 1, topN := 2, cache := none,
      update := false, stopClosed := false, withCache := false }
    ["a"]
    [{ key := "a", freq := 1, index := 0 }]
    { shards := [⟨2, [0], [("a", 0)]⟩], numShards := 1, topN := 2, cache := none,
      update := false, stopClosed := false, withCache := false }
    true
    (by decide) (by decide) (by decide) (by decide) (by decide)
